import Mathlib

/-!
A shallow embedding of the `jsonutil` JSON path engine (Go package) and proofs
about its specification claims.

Modelling conventions:
* Go `interface{}` JSON trees become the inductive type `Val`.  Go JSON numbers
  are `float64`; the claims under study never depend on floating-point
  formatting or arithmetic, so numbers are carried as `Int` (Go's
  `strconv.FormatFloat(v, 'f', -1, 64)` prints integral floats exactly the way
  `Int` repr does, without a decimal point).
* Go strings become `List Char` (Go `range` over a string iterates runes, which
  is exactly iteration over the character list).
* Go `map[string]interface{}` becomes an association list.  Go maps have
  pairwise-distinct keys; where a proof needs that fact it is an explicit
  well-formedness hypothesis.  Go map insertion (`m[k] = v`) is modelled as
  replace-or-append.
* Fallible Go functions returning `(T, error)` become `Except JErr T`, where
  `JErr` has one constructor per `fmt.Errorf` site in the source, carrying the
  data that the Go code interpolates into the message.
* Go mutation: `SetValueByPath` mutates the tree in place through the alias
  returned by `GetValueByPath`.  The pure model returns the updated tree, and
  the write-back along the navigation path (`modifyAtSegs`) follows exactly the
  same case analysis as the read (`getAtSegs`), which is what aliasing does.
-/

/-- JSON values, as produced by Go's `encoding/json` unmarshalling into
`interface{}`: null, bool, number, string, `map[string]interface{}` (here an
association list) and `[]interface{}`. -/
inductive Val where
  | vnull : Val
  | vbool : Bool → Val
  | vnum : Int → Val
  | vstr : List Char → Val
  | obj : List (List Char × Val) → Val
  | arr : List Val → Val

/-- Errors, one constructor per `fmt.Errorf` site in the Go source, carrying
the interpolated data. -/
inductive JErr where
  | nilValue : List Char → Nat → JErr
  | indexOnMap : List Char → Nat → JErr
  | keyNotFound : List Char → Nat → List Char → JErr
  | indexOutOfRange : List Char → Nat → Int → JErr
  | keyNotFoundInArray : List Char → Nat → List Char → JErr
  | cannotTraverse : List Char → Nat → List Char → JErr
  | emptyPath : JErr
  | invalidPath : JErr
  | parentFailed : List Char → JErr → JErr
  | setIndexOnMap : JErr
  | setIndexOutOfRange : Int → JErr
  | setKeyOnArray : List Char → JErr
  | setOnNonContainer : List Char → JErr
deriving DecidableEq

/-- Go `%T` on the dynamic value, for the error messages that interpolate the
runtime type. -/
def goTypeName : Val → List Char
  | .vnull => "<nil>".toList
  | .vbool _ => "bool".toList
  | .vnum _ => "float64".toList
  | .vstr _ => "string".toList
  | .obj _ => "map[string]interface \x7b\x7d".toList
  | .arr _ => "[]interface \x7b\x7d".toList

/-- State of the tokenizer loop in `parsePath`: the emitted parts, the pending
`strings.Builder` content, and the `inBrackets` flag. -/
structure ParseSt where
  parts : List (List Char)
  current : List Char
  inBrackets : Bool

/-- One step of the `for _, char := range path` loop body of `parsePath`. -/
def parseStep (st : ParseSt) (c : Char) : ParseSt :=
  if c = '.' then
    if !st.inBrackets then
      if st.current ≠ [] then ⟨st.parts ++ [st.current], [], st.inBrackets⟩ else st
    else
      ⟨st.parts, st.current ++ [c], st.inBrackets⟩
  else if c = '[' then
    if st.current ≠ [] then ⟨st.parts ++ [st.current], [], true⟩
    else ⟨st.parts, st.current, true⟩
  else if c = ']' then
    if st.inBrackets then ⟨st.parts ++ ['[' :: (st.current ++ [']'])], [], false⟩ else st
  else
    ⟨st.parts, st.current ++ [c], st.inBrackets⟩

/-- Go `parsePath`: tokenize a path string into parts. -/
def parsePath (path : List Char) : List (List Char) :=
  let st := path.foldl parseStep ⟨[], [], false⟩
  st.parts ++ (if st.current ≠ [] then [st.current] else [])

/-- Digit run parser underlying the model of Go `strconv.Atoi`: a nonempty,
all-digit character list denotes its base-10 value. -/
def parseDigits : List Char → Option Nat :=
  fun s =>
    if s ≠ [] ∧ s.all Char.isDigit then
      some (s.foldl (fun a c => a * 10 + (c.toNat - 48)) 0)
    else
      none

/-- Model of Go `strconv.Atoi`: an optional sign followed by a nonempty digit
run; anything else is an error.  (Go additionally errors on 64-bit overflow,
which the unbounded model does not track; no claim involves such indices.) -/
def atoi : List Char → Option Int
  | [] => none
  | c :: rest =>
    if c = '-' then (parseDigits rest).map (fun n => -(n : Int))
    else if c = '+' then (parseDigits rest).map (fun n => (n : Int))
    else (parseDigits (c :: rest)).map (fun n => (n : Int))

/-- Go `parsePart`: parse one path part into `(key, index, isArray)`.

The two branches marked "Go panics" model `part[idx+1 : strings.Index(part, "]")]`
when `"]"` is absent or occurs before the `"["`: the Go code would panic with a
slice-bounds error there.  Those inputs are unreachable from `parsePath` output
(tokenized parts never contain an unmatched `[`), and no claim exercises them;
the model returns the not-an-array answer in those branches. -/
def parsePart (part : List Char) : List Char × Int × Bool :=
  if part.head? = some '[' ∧ part.getLast? = some ']' then
    match atoi (part.drop 1).dropLast with
    | some idx => ([], idx, true)
    | none => ([], -1, false)
  else
    match part.findIdx? (· = '[') with
    | none => (part, -1, false)
    | some i =>
      let key := part.take i
      match part.findIdx? (· = ']') with
      | none => (key, -1, false)       -- Go panics here; unreachable from parsePath output
      | some j =>
        if j < i + 1 then (key, -1, false)  -- Go panics here; unreachable from parsePath output
        else
          match atoi ((part.take j).drop (i + 1)) with
          | some idx => (key, idx, true)
          | none => (key, -1, false)

/-- Go map read `v[key]`: the association list holds at most one binding per
key for trees that come from Go maps; lookup returns the first. -/
def lookupField : List (List Char × Val) → List Char → Option Val
  | [], _ => none
  | (k2, v) :: rest, k => if k2 = k then some v else lookupField rest k

/-- The array branch of `GetValueByPath` for a non-index segment: scan the
array for the first element that is a map containing `key` and return that
entry's value. -/
def findKeyInElems : List Val → List Char → Option Val
  | [], _ => none
  | .obj fs :: rest, k =>
    match lookupField fs k with
    | some v => some v
    | none => findKeyInElems rest k
  | _ :: rest, k => findKeyInElems rest k

/-- The `for i, part := range parts` loop of `GetValueByPath`, recursing over
the remaining parts; `i` is the position carried into error messages.  The
`nil` check at the top of the loop body is the `.vnull` case. -/
def getAtSegs : Val → List (List Char) → Nat → Except JErr Val
  | cur, [], _ => .ok cur
  | .vnull, part :: _, i => .error (.nilValue part i)
  | .obj fs, part :: rest, i =>
    match parsePart part with
    | (_, _, true) => .error (.indexOnMap part i)
    | (key, _, false) =>
      match lookupField fs key with
      | some v => getAtSegs v rest (i + 1)
      | none => .error (.keyNotFound part i key)
  | .arr es, part :: rest, i =>
    match parsePart part with
    | (_, index, true) =>
      if index < 0 ∨ index ≥ (es.length : Int) then .error (.indexOutOfRange part i index)
      else getAtSegs ((es.get? index.toNat).getD .vnull) rest (i + 1)
    | (key, _, false) =>
      match findKeyInElems es key with
      | some v => getAtSegs v rest (i + 1)
      | none => .error (.keyNotFoundInArray part i key)
  | cur, part :: _, i => .error (.cannotTraverse part i (goTypeName cur))

/-- Go `GetValueByPath`: empty path returns the data; otherwise tokenize and
walk. -/
def GetValueByPath (data : Val) (path : List Char) : Except JErr Val :=
  if path = [] then .ok data else getAtSegs data (parsePath path) 0

/-- Go `HasPath`: true exactly when `GetValueByPath` returns a nil error. -/
def HasPath (data : Val) (path : List Char) : Bool :=
  match GetValueByPath data path with
  | .ok _ => true
  | .error _ => false

/-- Go map assignment `v[key] = value`: replace the existing binding or add a
new one (association-list model: replace the first binding, else append). -/
def setField : List (List Char × Val) → List Char → Val → List (List Char × Val)
  | [], k, v => [(k, v)]
  | (k2, w) :: rest, k, v =>
    if k2 = k then (k2, v) :: rest else (k2, w) :: setField rest k v

/-- Go `setValueAtPath`: set a value at a single path part of a container. -/
def setValueAtPath (data : Val) (part : List Char) (value : Val) : Except JErr Val :=
  match parsePart part with
  | (key, index, isArr) =>
    match data with
    | .obj fs =>
      if isArr then .error .setIndexOnMap
      else .ok (.obj (setField fs key value))
    | .arr es =>
      if isArr then
        if index < 0 ∨ index ≥ (es.length : Int) then .error (.setIndexOutOfRange index)
        else .ok (.arr (es.set index.toNat value))
      else .error (.setKeyOnArray key)
    | other => .error (.setOnNonContainer (goTypeName other))

/-- Replace, inside the first binding of `k`, the bound value (used for the
write-back through a map the navigation descended into; the key is present
whenever this is reached). -/
def replaceField : List (List Char × Val) → List Char → Val → List (List Char × Val)
  | [], _, _ => []
  | (k2, w) :: rest, k, v =>
    if k2 = k then (k2, v) :: rest else (k2, w) :: replaceField rest k v

/-- Write-back counterpart of `findKeyInElems`: replace, in the first array
element that is a map containing `k`, the value bound to `k`. -/
def writeKeyInElems : List Val → List Char → Val → List Val
  | [], _, _ => []
  | .obj fs :: rest, k, v =>
    match lookupField fs k with
    | some _ => .obj (replaceField fs k v) :: rest
    | none => .obj fs :: writeKeyInElems rest k v
  | e :: rest, k, v => e :: writeKeyInElems rest k v

/-- Pure account of mutation through the alias that `GetValueByPath` returns:
navigate `segs` with exactly the case analysis of `getAtSegs`, apply `f` to the
value found there, and rebuild the tree around the result.  In Go the rebuild
is invisible because maps and slices are reference types; here it is explicit. -/
def modifyAtSegs : Val → List (List Char) → Nat → (Val → Except JErr Val) → Except JErr Val
  | cur, [], _, f => f cur
  | .vnull, part :: _, i, _ => .error (.nilValue part i)
  | .obj fs, part :: rest, i, f =>
    match parsePart part with
    | (_, _, true) => .error (.indexOnMap part i)
    | (key, _, false) =>
      match lookupField fs key with
      | some v => (modifyAtSegs v rest (i + 1) f).map (fun v2 => .obj (replaceField fs key v2))
      | none => .error (.keyNotFound part i key)
  | .arr es, part :: rest, i, f =>
    match parsePart part with
    | (_, index, true) =>
      if index < 0 ∨ index ≥ (es.length : Int) then .error (.indexOutOfRange part i index)
      else
        (modifyAtSegs ((es.get? index.toNat).getD .vnull) rest (i + 1) f).map
          (fun v2 => .arr (es.set index.toNat v2))
    | (key, _, false) =>
      match findKeyInElems es key with
      | some v => (modifyAtSegs v rest (i + 1) f).map (fun v2 => .arr (writeKeyInElems es key v2))
      | none => .error (.keyNotFoundInArray part i key)
  | cur, part :: _, i, _ => .error (.cannotTraverse part i (goTypeName cur))

/-- Go `strings.Join(parts, ".")`. -/
def dotJoin : List (List Char) → List Char
  | [] => []
  | [x] => x
  | x :: rest => x ++ '.' :: dotJoin rest

/-- Split a list into its leading part and last element. -/
def splitLast : List (List Char) → Option (List (List Char) × List Char)
  | [] => none
  | [x] => some ([], x)
  | x :: y :: rest =>
    match splitLast (y :: rest) with
    | some (front, l) => some (x :: front, l)
    | none => none

/-- Go `SetValueByPath`: empty path is an error; a single part sets directly on
the root container; otherwise resolve the parent (all parts but the last,
re-joined with `"."`) via `GetValueByPath` and assign into it.  The final
`modifyAtSegs` with a constant function is the pure image of Go's in-place
mutation of the aliased parent; its error branch is unreachable because the
parent read just succeeded on the same segments. -/
def SetValueByPath (data : Val) (path : List Char) (value : Val) : Except JErr Val :=
  if path = [] then .error .emptyPath
  else
    match parsePath path with
    | [] => .error .invalidPath
    | [single] => setValueAtPath data single value
    | a :: b :: rest =>
      match splitLast (a :: b :: rest) with
      | none => .error .invalidPath   -- unreachable: the list is nonempty
      | some (front, lastPart) =>
        match GetValueByPath data (dotJoin front) with
        | .error e => .error (.parentFailed (dotJoin front) e)
        | .ok parent =>
          match setValueAtPath parent lastPart value with
          | .error e => .error e
          | .ok parent2 =>
            match modifyAtSegs data (parsePath (dotJoin front)) 0 (fun _ => .ok parent2) with
            | .ok data2 => .ok data2
            | .error e => .error e

/-- The tree visible after calling Go's `SetValueByPath` on `data`: the updated
tree on success, the unchanged tree on error (the Go error paths return before
mutating anything). -/
def setOrKeep (data : Val) (path : List Char) (value : Val) : Val :=
  match SetValueByPath data path value with
  | .ok data2 => data2
  | .error _ => data

/-- Decimal digit to its character. -/
def digitToChar (d : Nat) : Char := Char.ofNat (48 + d)

/-- Fuel-indexed core of decimal printing by repeated division, as Go's `%d`
and `FormatFloat(_, 'f', -1, 64)` on an integral value produce it.  Fuel
`n + 1` always suffices since the argument shrinks by a factor of ten. -/
def natToCharsFuel : Nat → Nat → List Char
  | 0, _ => []
  | fuel + 1, n =>
    if n < 10 then [digitToChar n]
    else natToCharsFuel fuel (n / 10) ++ [digitToChar (n % 10)]

/-- Decimal representation of a natural number (Go `%d`). -/
def natToChars (n : Nat) : List Char := natToCharsFuel (n + 1) n

/-- Decimal representation of an integer (Go `%d`). -/
def intToChars (i : Int) : List Char :=
  if i < 0 then '-' :: natToChars i.natAbs else natToChars i.toNat

/-- JSON string escaping for quote and backslash.  (Go's `encoding/json`
additionally escapes control characters and `<`, `>`, `&`; no claim involves
values containing those, so the model covers the common characters.) -/
def escapeChar (c : Char) : List Char :=
  if c = '"' ∨ c = '\\' then ['\\', c] else [c]

mutual

/-- Model of `json.Marshal` on unmarshalled JSON values, used only through the
default branch of `convertToString`.  (Go sorts object keys when marshalling a
map; the model keeps the association-list order.  No claim depends on this
branch.) -/
def jsonMarshal : Val → List Char
  | .vnull => "null".toList
  | .vbool true => "true".toList
  | .vbool false => "false".toList
  | .vnum n => intToChars n
  | .vstr s => '"' :: ((s.map escapeChar).flatten ++ ['"'])
  | .obj fs => Char.ofNat 123 :: (jsonMarshalFields fs ++ [Char.ofNat 125])
  | .arr es => '[' :: (jsonMarshalElems es ++ [']'])

/-- Field list part of `jsonMarshal`. -/
def jsonMarshalFields : List (List Char × Val) → List Char
  | [] => []
  | [(k, v)] => '"' :: ((k.map escapeChar).flatten ++ '"' :: ':' :: jsonMarshal v)
  | (k, v) :: rest =>
    ('"' :: ((k.map escapeChar).flatten ++ '"' :: ':' :: jsonMarshal v)) ++
      ',' :: jsonMarshalFields rest

/-- Element list part of `jsonMarshal`. -/
def jsonMarshalElems : List Val → List Char
  | [] => []
  | [v] => jsonMarshal v
  | v :: rest => jsonMarshal v ++ ',' :: jsonMarshalElems rest

end

/-- Go helper `convertToString`: nil becomes the empty string, scalars print
themselves, containers go through `json.Marshal`. -/
def convertToString : Val → List Char
  | .vnull => []
  | .vstr s => s
  | .vnum n => intToChars n
  | .vbool true => "true".toList
  | .vbool false => "false".toList
  | .obj fs => jsonMarshal (.obj fs)
  | .arr es => jsonMarshal (.arr es)

/-- Go `getValueType`: the kind of a value as a string. -/
def getValueType : Val → List Char
  | .vnull => "null".toList
  | .vstr _ => "string".toList
  | .vnum _ => "number".toList
  | .vbool _ => "bool".toList
  | .obj _ => "object".toList
  | .arr _ => "array".toList

/-- Leading-run test: the first list read off character by character at the
head of the second. -/
def leadingRun : List Char → List Char → Bool
  | [], _ => true
  | _ :: _, [] => false
  | p :: ps, c :: cs => p = c && leadingRun ps cs

/-- Substring containment test. -/
def containsSub : List Char → List Char → Bool
  | pat, [] => pat.isEmpty
  | pat, c :: rest => leadingRun pat (c :: rest) || containsSub pat rest

/-- Model of Go `regexp.MatchString(pattern, s)` for patterns free of regex
metacharacters (every pattern appearing in the claims is the literal `name`):
an unanchored match of a literal pattern holds exactly when the pattern occurs
as a substring of `s`.  The `(matched, err)` pair collapses to the Bool since
the Go callers discard the error. -/
def regexpMatchString (pattern s : List Char) : Bool := containsSub pattern s

/-- Go `FindOptions` struct. -/
structure FindOptions where
  KeyPattern : List Char
  ValuePattern : List Char
  ExactValue : List Char
  ValueType : List Char

/-- Go `matchesOptions`: nil options match nothing; otherwise each nonempty
filter must pass, in source order (key pattern, value type, exact value, value
pattern), with the key pattern skipped when the key is empty. -/
def matchesOptions (value : Val) (key : List Char) (options : Option FindOptions) : Bool :=
  match options with
  | none => false
  | some o =>
    if o.KeyPattern ≠ [] ∧ key ≠ [] ∧ regexpMatchString o.KeyPattern key = false then false
    else if o.ValueType ≠ [] ∧ getValueType value ≠ o.ValueType then false
    else if o.ExactValue ≠ [] ∧ convertToString value ≠ o.ExactValue then false
    else if o.ValuePattern ≠ [] ∧
        regexpMatchString o.ValuePattern (convertToString value) = false then false
    else true

mutual

/-- Go `findPathsRecursive`: pre-order walk appending matching paths.  The Go
function returns an `error` that is nil on every path (regex errors are
discarded in `matchesOptions`), so the model returns the path list alone. -/
def findPathsRecursive : Val → List Char → Option FindOptions → List (List Char)
  | .obj fs, currentPath, options => findPathsFields fs currentPath options
  | .arr es, currentPath, options => findPathsElems es 0 currentPath options
  | _, _, _ => []

/-- Object branch of `findPathsRecursive` (`for key, val := range v`). -/
def findPathsFields : List (List Char × Val) → List Char → Option FindOptions → List (List Char)
  | [], _, _ => []
  | (key, v) :: rest, currentPath, options =>
    let newPath := (if currentPath ≠ [] then currentPath ++ ['.'] else currentPath) ++ key
    ((if matchesOptions v key options then [newPath] else []) ++
      findPathsRecursive v newPath options) ++ findPathsFields rest currentPath options

/-- Array branch of `findPathsRecursive` (`for i, val := range v`); array
elements are tested with an empty key. -/
def findPathsElems : List Val → Nat → List Char → Option FindOptions → List (List Char)
  | [], _, _, _ => []
  | v :: rest, i, currentPath, options =>
    let newPath := currentPath ++ '[' :: (natToChars i ++ [']'])
    ((if matchesOptions v [] options then [newPath] else []) ++
      findPathsRecursive v newPath options) ++ findPathsElems rest (i + 1) currentPath options

end

/-- Go `FindPaths`: a nil options pointer is replaced by an empty options
struct before the walk. -/
def FindPaths (data : Val) (options : Option FindOptions) : List (List Char) :=
  findPathsRecursive data [] (some (options.getD ⟨[], [], [], []⟩))

mutual

/-- Go `getAllPathsRecursive`: record every object-entry and array-element
path, unconditionally. -/
def getAllPathsRecursive : Val → List Char → List (List Char)
  | .obj fs, currentPath => getAllPathsFields fs currentPath
  | .arr es, currentPath => getAllPathsElems es 0 currentPath
  | _, _ => []

/-- Object branch of `getAllPathsRecursive`. -/
def getAllPathsFields : List (List Char × Val) → List Char → List (List Char)
  | [], _ => []
  | (key, v) :: rest, currentPath =>
    let newPath := (if currentPath ≠ [] then currentPath ++ ['.'] else currentPath) ++ key
    (newPath :: getAllPathsRecursive v newPath) ++ getAllPathsFields rest currentPath

/-- Array branch of `getAllPathsRecursive`. -/
def getAllPathsElems : List Val → Nat → List Char → List (List Char)
  | [], _, _ => []
  | v :: rest, i, currentPath =>
    let newPath := currentPath ++ '[' :: (natToChars i ++ [']'])
    (newPath :: getAllPathsRecursive v newPath) ++ getAllPathsElems rest (i + 1) currentPath

end

/-- Go `GetAllPaths`. -/
def GetAllPaths (data : Val) : List (List Char) := getAllPathsRecursive data []

/-- Shorthand for string literals as character lists. -/
def sl (s : String) : List Char := s.toList

/-- The Go zero value `FindOptions{}`: a criteria object with no filters set. -/
def emptyOpts : FindOptions := ⟨[], [], [], []⟩

theorem matchesOptions_emptyOpts (v : Val) (k : List Char) :
    matchesOptions v k (some emptyOpts) = true := by
  simp [matchesOptions, emptyOpts]

mutual

theorem findEmptyV : ∀ (v : Val) (cur : List Char),
    findPathsRecursive v cur (some emptyOpts) = getAllPathsRecursive v cur
  | .vnull, _ => rfl
  | .vbool _, _ => rfl
  | .vnum _, _ => rfl
  | .vstr _, _ => rfl
  | .obj fs, cur => by
    simp [findPathsRecursive, getAllPathsRecursive, findEmptyF fs cur]
  | .arr es, cur => by
    simp [findPathsRecursive, getAllPathsRecursive, findEmptyE es 0 cur]

theorem findEmptyF : ∀ (fs : List (List Char × Val)) (cur : List Char),
    findPathsFields fs cur (some emptyOpts) = getAllPathsFields fs cur
  | [], _ => rfl
  | (k, v) :: rest, cur => by
    simp [findPathsFields, getAllPathsFields, matchesOptions_emptyOpts,
      findEmptyV v, findEmptyF rest cur]

theorem findEmptyE : ∀ (es : List Val) (i : Nat) (cur : List Char),
    findPathsElems es i cur (some emptyOpts) = getAllPathsElems es i cur
  | [], _, _ => rfl
  | v :: rest, i, cur => by
    simp [findPathsElems, getAllPathsElems, matchesOptions_emptyOpts,
      findEmptyV v, findEmptyE rest (i + 1) cur]

end

/-- Claim C1, counterexample.  On the tree `{"a":"b"}`, `FindPaths` with a
criteria object in which no filter is set returns `["a"]`, not the empty
sequence, and the match predicate with the entirely empty (non-nil) criteria
returns `true` on the node, not `false`. -/
theorem c1_counterexample :
    FindPaths (Val.obj [(sl ("a"), Val.vstr (sl ("b")))]) (some ⟨[], [], [], []⟩) = [sl ("a")] ∧
    FindPaths (Val.obj [(sl ("a"), Val.vstr (sl ("b")))]) (some ⟨[], [], [], []⟩) ≠ [] ∧
    matchesOptions (Val.vstr (sl ("b"))) (sl ("a")) (some ⟨[], [], [], []⟩) = true := by
  refine ⟨rfl, ?_, rfl⟩
  decide

/-- Claim C1, amended.  The match predicate with an entirely empty criteria
object returns `true` for every node (only a nil criteria pointer yields
`false`), so `FindPaths` with an empty criteria object returns the full path
set: exactly `GetAllPaths`. -/
theorem c1_empty_criteria_matches_everything (t v : Val) (k : List Char) :
    matchesOptions v k (some emptyOpts) = true ∧
    FindPaths t (some emptyOpts) = GetAllPaths t :=
  ⟨matchesOptions_emptyOpts v k, findEmptyV t []⟩

/-- The tree `{"user":{"name":"J","items":[{"name":"x"}]}}` from claim C3. -/
def nameTree : Val :=
  .obj [(sl ("user"), .obj [(sl ("name"), .vstr (sl ("J"))),
    (sl ("items"), .arr [.obj [(sl ("name"), .vstr (sl ("x")))]])])]

/-- Claim C3, counterexample.  `FindPaths` with `KeyPattern="name"` on the
claim's tree does include the array-element path `"user.items[0]"`: array
elements are tested with an empty key, which skips the key-pattern filter, and
no other filter is set, so every array element matches. -/
theorem c3_counterexample :
    sl ("user.items[0]") ∈ FindPaths nameTree (some ⟨sl ("name"), [], [], []⟩) := by
  decide

/-- Claim C3, amended.  `FindPaths` with `KeyPattern="name"` (no other filter)
on `{"user":{"name":"J","items":[{"name":"x"}]}}` returns exactly the paths
`"user.name"`, `"user.items[0]"` and `"user.items[0].name"` (in the model's
fixed field order; Go's map iteration order may permute entries of distinct
objects, never drop or add paths). -/
theorem c3_keyPattern_result :
    FindPaths nameTree (some ⟨sl ("name"), [], [], []⟩) =
      [sl ("user.name"), sl ("user.items[0]"), sl ("user.items[0].name")] := rfl

/-- Claim C4, confirmed.  `HasPath` returns true exactly when `GetValueByPath`
returns without an error, for every tree and path. -/
theorem c4_hasPath_iff_get_ok (d : Val) (p : List Char) :
    HasPath d p = true ↔ ∃ v, GetValueByPath d p = .ok v := by
  unfold HasPath
  cases h : GetValueByPath d p <;> simp

/-- Claim C6, confirmed.  The empty path returns the tree itself, never an
error, for every shape of tree including scalars and null. -/
theorem c6_empty_path_identity (d : Val) : GetValueByPath d [] = .ok d := rfl

/-- Claim C7, confirmed.  When the walk of `GetValueByPath` reaches an array
with an index-only segment whose index is out of bounds (negative or at least
the length), it returns the `indexOutOfRange` traversal error — a returned
error value, never a panic; in particular `Get` on `"items[5]"` against a
2-element array under key `"items"` fails exactly that way. -/
theorem c7_get_index_out_of_range :
    (∀ (es : List Val) (part : List Char) (k : List Char) (i : Int)
        (rest : List (List Char)) (j : Nat),
      parsePart part = (k, i, true) → (i < 0 ∨ i ≥ (es.length : Int)) →
      getAtSegs (.arr es) (part :: rest) j = .error (.indexOutOfRange part j i)) ∧
    GetValueByPath (Val.obj [(sl ("items"), .arr [.vnum 1, .vnum 2])]) (sl ("items[5]")) =
      .error (.indexOutOfRange (sl ("[5]")) 1 5) := by
  constructor
  · intro es part k i rest j hp hb
    simp [getAtSegs, hp, hb]
  · rfl

/-- Witness for the universally quantified half of claim C7 at a concrete
out-of-bounds read. -/
theorem c7_witness :
    getAtSegs (Val.arr [Val.vnull]) [sl ("[3]")] 0 =
      .error (.indexOutOfRange (sl ("[3]")) 0 3) :=
  c7_get_index_out_of_range.1 [Val.vnull] (sl ("[3]")) [] 3 [] 0 (by decide) (by decide)

theorem digitToChar_isDigit (d : Nat) (h : d < 10) : (digitToChar d).isDigit = true := by
  interval_cases d <;> decide

theorem digitToChar_toNat (d : Nat) (h : d < 10) : (digitToChar d).toNat = 48 + d := by
  interval_cases d <;> decide

theorem isDigit_not_special (c : Char) (h : c.isDigit = true) :
    c ≠ '.' ∧ c ≠ '[' ∧ c ≠ ']' ∧ c ≠ '-' ∧ c ≠ '+' := by
  refine ⟨?_, ?_, ?_, ?_, ?_⟩ <;> (rintro rfl; exact absurd h (by decide))

theorem natToCharsFuel_digits (fuel : Nat) :
    ∀ (n : Nat), n < fuel →
      natToCharsFuel fuel n ≠ [] ∧ ∀ c ∈ natToCharsFuel fuel n, c.isDigit = true := by
  induction fuel with
  | zero => omega
  | succ fuel ih =>
    intro n _
    by_cases h10 : n < 10
    · refine ⟨by simp [natToCharsFuel, h10], ?_⟩
      intro c hc
      simp [natToCharsFuel, h10] at hc
      exact hc ▸ digitToChar_isDigit n h10
    · have hd : n / 10 < fuel := by omega
      obtain ⟨hne, hall⟩ := ih (n / 10) hd
      refine ⟨by simp [natToCharsFuel, h10, hne], ?_⟩
      intro c hc
      simp only [natToCharsFuel, if_neg h10, List.mem_append, List.mem_singleton] at hc
      rcases hc with hc | hc
      · exact hall c hc
      · exact hc ▸ digitToChar_isDigit (n % 10) (by omega)

theorem natToCharsFuel_foldl (fuel : Nat) :
    ∀ (n a : Nat), n < fuel →
      (natToCharsFuel fuel n).foldl (fun acc c => acc * 10 + (c.toNat - 48)) a =
        a * 10 ^ (natToCharsFuel fuel n).length + n := by
  induction fuel with
  | zero => omega
  | succ fuel ih =>
    intro n a _
    by_cases h10 : n < 10
    · simp [natToCharsFuel, h10, digitToChar_toNat n h10]
    · have hd : n / 10 < fuel := by omega
      simp only [natToCharsFuel, if_neg h10, List.foldl_append, List.length_append,
        List.foldl_cons, List.foldl_nil, List.length_cons, List.length_nil]
      rw [ih (n / 10) a hd, digitToChar_toNat (n % 10) (by omega)]
      have h48 : 48 + n % 10 - 48 = n % 10 := by omega
      rw [h48, pow_succ]
      have hdm : 10 * (n / 10) + n % 10 = n := Nat.div_add_mod n 10
      generalize (10 : Nat) ^ (natToCharsFuel fuel (n / 10)).length = m
      have : (a * m + n / 10) * 10 = a * m * 10 + (n / 10) * 10 := by ring
      rw [this]
      have : a * (m * 10) = a * m * 10 := by ring
      rw [this]
      omega

theorem natToChars_ne_nil (n : Nat) : natToChars n ≠ [] :=
  (natToCharsFuel_digits (n + 1) n (by omega)).1

theorem natToChars_digits (n : Nat) : ∀ c ∈ natToChars n, c.isDigit = true :=
  (natToCharsFuel_digits (n + 1) n (by omega)).2

theorem parseDigits_natToChars (n : Nat) : parseDigits (natToChars n) = some n := by
  have hall : (natToChars n).all Char.isDigit = true :=
    List.all_eq_true.2 (fun c hc => natToChars_digits n c hc)
  unfold parseDigits
  rw [if_pos ⟨natToChars_ne_nil n, hall⟩]
  unfold natToChars
  rw [natToCharsFuel_foldl (n + 1) n 0 (by omega)]
  simp

theorem atoi_natToChars (n : Nat) : atoi (natToChars n) = some (n : Int) := by
  have h := parseDigits_natToChars n
  rcases hc : natToChars n with _ | ⟨c, rest⟩
  · exact absurd hc (natToChars_ne_nil n)
  · have hcd : c.isDigit = true := natToChars_digits n c (by rw [hc]; exact List.mem_cons_self c rest)
    have h1 : c ≠ '-' := (isDigit_not_special c hcd).2.2.2.1
    have h2 : c ≠ '+' := (isDigit_not_special c hcd).2.2.2.2
    rw [hc] at h
    simp [atoi, h1, h2, h]

theorem atoi_intToChars (i : Int) : atoi (intToChars i) = some i := by
  unfold intToChars
  by_cases h : i < 0
  · rw [if_pos h]
    have h1 : atoi ('-' :: natToChars i.natAbs) =
        (parseDigits (natToChars i.natAbs)).map (fun n => -(n : Int)) := rfl
    rw [h1, parseDigits_natToChars]
    show some (-((i.natAbs : Nat) : Int)) = some i
    congr 1
    omega
  · rw [if_neg h]
    have hx : ((i.toNat : Nat) : Int) = i := by omega
    rw [atoi_natToChars i.toNat, hx]

theorem natToChars_plain (n : Nat) :
    ∀ c ∈ natToChars n, c ≠ '.' ∧ c ≠ '[' ∧ c ≠ ']' := by
  intro c hc
  have h := isDigit_not_special c (natToChars_digits n c hc)
  exact ⟨h.1, h.2.1, h.2.2.1⟩

theorem intToChars_plain (i : Int) :
    ∀ c ∈ intToChars i, c ≠ '.' ∧ c ≠ '[' ∧ c ≠ ']' := by
  intro c hc
  unfold intToChars at hc
  by_cases h : i < 0
  · rw [if_pos h] at hc
    rcases List.mem_cons.1 hc with rfl | hc
    · exact ⟨by decide, by decide, by decide⟩
    · exact natToChars_plain _ c hc
  · rw [if_neg h] at hc
    exact natToChars_plain _ c hc

/-- Folding the tokenizer step over a character list. -/
def parseFold (cs : List Char) (st : ParseSt) : ParseSt := cs.foldl parseStep st

/-- The final flush of `parsePath`: the pending builder content as a one-part
list when nonempty. -/
def flushCur (st : ParseSt) : List (List Char) := if st.current ≠ [] then [st.current] else []

/-- The parts a tokenizer state denotes once the input ends. -/
def finishParse (st : ParseSt) : List (List Char) := st.parts ++ flushCur st

theorem parsePath_eq_finish (p : List Char) :
    parsePath p = finishParse (parseFold p ⟨[], [], false⟩) := rfl

theorem parseFold_append (a b : List Char) (st : ParseSt) :
    parseFold (a ++ b) st = parseFold b (parseFold a st) := List.foldl_append _ _ _ _

theorem parseStep_plain (st : ParseSt) (c : Char)
    (h : c ≠ '.' ∧ c ≠ '[' ∧ c ≠ ']') :
    parseStep st c = ⟨st.parts, st.current ++ [c], st.inBrackets⟩ := by
  unfold parseStep
  rw [if_neg h.1, if_neg h.2.1, if_neg h.2.2]

theorem parseStep_dot_out (parts : List (List Char)) (cur : List Char) :
    parseStep ⟨parts, cur, false⟩ '.' =
      ⟨parts ++ (if cur ≠ [] then [cur] else []), [], false⟩ := by
  by_cases hc : cur = [] <;> simp [parseStep, hc]

theorem parseStep_lbracket (parts : List (List Char)) (cur : List Char) (b : Bool) :
    parseStep ⟨parts, cur, b⟩ '[' =
      ⟨parts ++ (if cur ≠ [] then [cur] else []), [], true⟩ := by
  by_cases hc : cur = [] <;> simp [parseStep, hc]

theorem parseStep_rbracket_in (parts : List (List Char)) (cur : List Char) :
    parseStep ⟨parts, cur, true⟩ ']' =
      ⟨parts ++ ['[' :: (cur ++ [']'])], [], false⟩ := by
  simp [parseStep]

theorem parseFold_plainChars (cs : List Char) :
    ∀ (parts : List (List Char)) (cur : List Char) (b : Bool),
      (∀ c ∈ cs, c ≠ '.' ∧ c ≠ '[' ∧ c ≠ ']') →
      parseFold cs ⟨parts, cur, b⟩ = ⟨parts, cur ++ cs, b⟩ := by
  induction cs with
  | nil => intro parts cur b _; simp [parseFold]
  | cons c cs ih =>
    intro parts cur b h
    have hc := h c (List.mem_cons_self c cs)
    show parseFold cs (parseStep ⟨parts, cur, b⟩ c) = _
    rw [parseStep_plain _ c hc]
    rw [ih parts (cur ++ [c]) b (fun x hx => h x (List.mem_cons_of_mem c hx))]
    simp

theorem parseFold_inBrackets (cs : List Char) :
    ∀ (parts : List (List Char)) (cur : List Char),
      (∀ c ∈ cs, c ≠ '[' ∧ c ≠ ']') →
      parseFold cs ⟨parts, cur, true⟩ = ⟨parts, cur ++ cs, true⟩ := by
  induction cs with
  | nil => intro parts cur _; simp [parseFold]
  | cons c cs ih =>
    intro parts cur h
    have hc := h c (List.mem_cons_self c cs)
    have hstep : parseStep ⟨parts, cur, true⟩ c = ⟨parts, cur ++ [c], true⟩ := by
      by_cases hdot : c = '.'
      · subst hdot; simp [parseStep]
      · exact parseStep_plain _ c ⟨hdot, hc.1, hc.2⟩
    show parseFold cs (parseStep ⟨parts, cur, true⟩ c) = _
    rw [hstep, ih parts (cur ++ [c]) (fun x hx => h x (List.mem_cons_of_mem c hx))]
    simp

theorem parseFold_bracketSeg (inner : List Char) (parts : List (List Char))
    (cur : List Char) (b : Bool) (h : ∀ c ∈ inner, c ≠ '[' ∧ c ≠ ']') :
    parseFold ('[' :: (inner ++ [']'])) ⟨parts, cur, b⟩ =
      ⟨(parts ++ (if cur ≠ [] then [cur] else [])) ++ ['[' :: (inner ++ [']'])], [], false⟩ := by
  show parseFold (inner ++ [']']) (parseStep ⟨parts, cur, b⟩ '[') = _
  rw [parseStep_lbracket, parseFold_append, parseFold_inBrackets inner _ _ h]
  show parseStep ⟨parts ++ (if cur ≠ [] then [cur] else []), [] ++ inner, true⟩ ']' = _
  rw [List.nil_append, parseStep_rbracket_in]

/-- Normal form of tokenizer output parts: nonempty, and either bracket-free or
a single bracketed group. -/
def normalSeg (s : List Char) : Prop :=
  s ≠ [] ∧ (('[' ∉ s ∧ ']' ∉ s) ∨
    ∃ inner, s = '[' :: (inner ++ [']']) ∧ '[' ∉ inner ∧ ']' ∉ inner)

/-- Invariant of the tokenizer state: all emitted parts are in normal form and
the pending builder content is bracket-free. -/
def stepInv (st : ParseSt) : Prop :=
  (∀ s ∈ st.parts, normalSeg s) ∧ '[' ∉ st.current ∧ ']' ∉ st.current

theorem stepInv_flush (st : ParseSt) (h : stepInv st) :
    ∀ s ∈ st.parts ++ (if st.current ≠ [] then [st.current] else []), normalSeg s := by
  intro s hs
  rcases List.mem_append.1 hs with hs | hs
  · exact h.1 s hs
  · by_cases hc : st.current = []
    · simp [hc] at hs
    · rw [if_pos hc] at hs
      rcases List.mem_singleton.1 hs with rfl
      exact ⟨hc, Or.inl ⟨h.2.1, h.2.2⟩⟩

theorem parseStep_inv (st : ParseSt) (c : Char) (h : stepInv st) :
    stepInv (parseStep st c) := by
  obtain ⟨hp, hc1, hc2⟩ := h
  unfold parseStep
  by_cases h1 : c = '.'
  · subst h1
    rw [if_pos rfl]
    cases hb : st.inBrackets
    · simp only [hb, Bool.not_false, if_pos]
      by_cases hcur : st.current = []
      · rw [if_neg (by simp [hcur])]
        exact ⟨hp, hc1, hc2⟩
      · rw [if_pos hcur]
        refine ⟨?_, by simp, by simp⟩
        have := stepInv_flush st ⟨hp, hc1, hc2⟩
        intro s hs
        apply this
        simpa [if_pos hcur] using hs
    · simp only [hb, Bool.not_true, if_neg]
      refine ⟨hp, ?_, ?_⟩ <;> simp [hc1, hc2]
  · rw [if_neg h1]
    by_cases h2 : c = '['
    · subst h2
      rw [if_pos rfl]
      by_cases hcur : st.current = []
      · simp only [hcur, ne_eq, not_true_eq_false, if_neg, reduceIte]
        exact ⟨hp, by simp [hcur], by simp [hcur]⟩
      · rw [if_pos hcur]
        refine ⟨?_, by simp, by simp⟩
        have := stepInv_flush st ⟨hp, hc1, hc2⟩
        intro s hs
        apply this
        simpa [if_pos hcur] using hs
    · rw [if_neg h2]
      by_cases h3 : c = ']'
      · subst h3
        rw [if_pos rfl]
        cases hb : st.inBrackets
        · rw [if_neg (by decide)]
          exact ⟨hp, hc1, hc2⟩
        · rw [if_pos rfl]
          refine ⟨?_, by simp, by simp⟩
          intro s hs
          rcases List.mem_append.1 hs with hs | hs
          · exact hp s hs
          · rcases List.mem_singleton.1 hs with rfl
            exact ⟨by simp, Or.inr ⟨st.current, rfl, hc1, hc2⟩⟩
      · rw [if_neg h3]
        refine ⟨hp, ?_, ?_⟩
        · simp [hc1, Ne.symm h2]
        · simp [hc2, Ne.symm h3]

theorem parseFold_inv (cs : List Char) :
    ∀ st, stepInv st → stepInv (parseFold cs st) := by
  induction cs with
  | nil => intro st h; exact h
  | cons c cs ih =>
    intro st h
    exact ih (parseStep st c) (parseStep_inv st c h)

theorem parsePath_normalSeg (p : List Char) : ∀ s ∈ parsePath p, normalSeg s := by
  have hinv : stepInv (parseFold p ⟨[], [], false⟩) :=
    parseFold_inv p ⟨[], [], false⟩ ⟨by simp, by simp, by simp⟩
  intro s hs
  exact stepInv_flush _ hinv s hs

/-- Claim C8, confirmed.  The tokenizer emits `"key[0]"` as exactly the two
parts `"key"` and `"[0]"`, and in general a `[` flushes any pending key text
first, so every tokenizer-produced part containing `[` starts with it: no part
combines a leading key with a bracketed index. -/
theorem c8_tokenizer_splits_key_and_bracket :
    parsePath (sl ("key[0]")) = [sl ("key"), sl ("[0]")] ∧
    (∀ (p s : List Char), s ∈ parsePath p → '[' ∈ s →
      ∃ t, s = '[' :: t ∧ '[' ∉ t) := by
  refine ⟨by decide, ?_⟩
  intro p s hs hb
  obtain ⟨_, hcase⟩ := parsePath_normalSeg p s hs
  rcases hcase with ⟨h1, _⟩ | ⟨inner, rfl, h1, _⟩
  · exact absurd hb h1
  · refine ⟨inner ++ [']'], rfl, ?_⟩
    intro hmem
    rcases List.mem_append.1 hmem with hmem | hmem
    · exact h1 hmem
    · simp at hmem

/-- Rendering of a part list as the tail of a dot-join: a dot before every
part. -/
def dotTailRender (segs : List (List Char)) : List Char :=
  (segs.map (fun s => '.' :: s)).flatten

theorem dotJoin_cons (x : List Char) (rest : List (List Char)) :
    dotJoin (x :: rest) = x ++ dotTailRender rest := by
  induction rest generalizing x with
  | nil => simp [dotJoin, dotTailRender]
  | cons y r ih =>
    show x ++ '.' :: dotJoin (y :: r) = _
    rw [ih y]
    simp [dotTailRender]

theorem parseFold_seg (s : List Char) (parts : List (List Char))
    (h : normalSeg s) (hdot : '.' ∉ s) :
    parseFold s ⟨parts, [], false⟩ =
      (⟨parts, s, false⟩ : ParseSt) ∨
    parseFold s ⟨parts, [], false⟩ = ⟨parts ++ [s], [], false⟩ := by
  obtain ⟨hne, hcase⟩ := h
  rcases hcase with ⟨h1, h2⟩ | ⟨inner, rfl, h1, h2⟩
  · left
    rw [parseFold_plainChars s parts [] false
      (fun c hc => ⟨fun he => hdot (he ▸ hc), fun he => h1 (he ▸ hc), fun he => h2 (he ▸ hc)⟩)]
    simp
  · right
    rw [parseFold_bracketSeg inner parts [] false
      (fun c hc => ⟨fun he => h1 (he ▸ hc), fun he => h2 (he ▸ hc)⟩)]
    simp

theorem parseFold_dotTail (segs : List (List Char)) :
    ∀ (parts : List (List Char)) (cur : List Char),
      (∀ s ∈ segs, normalSeg s ∧ '.' ∉ s) →
      finishParse (parseFold (dotTailRender segs) ⟨parts, cur, false⟩) =
        (parts ++ (if cur ≠ [] then [cur] else [])) ++ segs := by
  induction segs with
  | nil =>
    intro parts cur _
    simp [dotTailRender, parseFold, finishParse, flushCur]
  | cons s rest ih =>
    intro parts cur h
    obtain ⟨hs, hsdot⟩ := h s (List.mem_cons_self s rest)
    have hrest : ∀ x ∈ rest, normalSeg x ∧ '.' ∉ x :=
      fun x hx => h x (List.mem_cons_of_mem s hx)
    have hflat : dotTailRender (s :: rest) = ('.' :: s) ++ dotTailRender rest := by
      simp [dotTailRender]
    rw [hflat, parseFold_append]
    have hstep : parseFold ('.' :: s) ⟨parts, cur, false⟩ =
        parseFold s ⟨parts ++ (if cur ≠ [] then [cur] else []), [], false⟩ := by
      show parseFold s (parseStep ⟨parts, cur, false⟩ '.') = _
      rw [parseStep_dot_out]
    rw [hstep]
    rcases parseFold_seg s (parts ++ (if cur ≠ [] then [cur] else [])) hs hsdot with hc | hc
    · rw [hc, ih _ s hrest, if_pos hs.1]
      simp
    · rw [hc, ih _ [] hrest]
      simp

theorem parsePath_dotJoin (segs : List (List Char))
    (h : ∀ s ∈ segs, normalSeg s ∧ '.' ∉ s) : parsePath (dotJoin segs) = segs := by
  cases segs with
  | nil => rfl
  | cons s rest =>
    obtain ⟨hs, hsdot⟩ := h s (List.mem_cons_self s rest)
    have hrest : ∀ x ∈ rest, normalSeg x ∧ '.' ∉ x :=
      fun x hx => h x (List.mem_cons_of_mem s hx)
    rw [dotJoin_cons, parsePath_eq_finish, parseFold_append]
    rcases parseFold_seg s [] hs hsdot with hc | hc
    · rw [hc, parseFold_dotTail rest [] s hrest, if_pos hs.1]
      simp
    · rw [hc, parseFold_dotTail rest ([] ++ [s]) [] hrest]
      simp

/-- Claim C9, counterexample.  The path `"[a.b[0]"` tokenizes to the parts
`"a.b"` and `"[0]"` (a dot inside brackets survives into a part when a second
`[` flushes the bracket content as plain text).  Re-joining the one-part
parent prefix `["a.b"]` with `"."` and re-tokenizing yields `["a", "b"]`, not
the original prefix, so tokenization is not stable under the rejoining that
`SetValueByPath` performs. -/
theorem c9_counterexample :
    parsePath (sl ("[a.b[0]")) = [sl ("a.b"), sl ("[0]")] ∧
    parsePath (dotJoin [sl ("a.b")]) = [sl ("a"), sl ("b")] ∧
    parsePath (dotJoin [sl ("a.b")]) ≠ [sl ("a.b")] :=
  ⟨by decide, by decide, by decide⟩

/-- Claim C9, amended.  For every path string whose tokenized parts contain no
`.` character, every prefix of the part list, re-joined with `"."` and
re-tokenized, yields exactly that prefix (so `SetValueByPath`'s parent
resolution navigates the same parts as the original path). -/
theorem c9_rejoin_stable_for_dotfree_parts (p : List Char)
    (h : ∀ s ∈ parsePath p, '.' ∉ s)
    (pre suf : List (List Char)) (hps : parsePath p = pre ++ suf) :
    parsePath (dotJoin pre) = pre := by
  apply parsePath_dotJoin
  intro s hs
  have hmem : s ∈ parsePath p := by
    rw [hps]
    exact List.mem_append_left _ hs
  exact ⟨parsePath_normalSeg p s hmem, h s hmem⟩

/-- Witness for claim C9's amended statement on the path `"a.b[0]"` and its
parent prefix `["a", "b"]`. -/
theorem c9_witness : parsePath (dotJoin [sl ("a"), sl ("b")]) = [sl ("a"), sl ("b")] :=
  c9_rejoin_stable_for_dotfree_parts (sl ("a.b[0]")) (by decide)
    [sl ("a"), sl ("b")] [sl ("[0]")] (by decide)

theorem parsePart_bracket (inner : List Char) (i : Int) (h : atoi inner = some i) :
    parsePart ('[' :: (inner ++ [']'])) = ([], i, true) := by
  unfold parsePart
  have h2 : ('[' :: (inner ++ [']'])).getLast? = some ']' := by
    show (('[' :: inner) ++ [']']).getLast? = some ']'
    exact List.getLast?_concat _
  rw [if_pos ⟨rfl, h2⟩]
  have h3 : (('[' :: (inner ++ [']'])).drop 1).dropLast = inner := by
    show (inner ++ [']']).dropLast = inner
    exact List.dropLast_concat
  rw [h3, h]

theorem parsePart_key (k : List Char) (h : '[' ∉ k) : parsePart k = (k, -1, false) := by
  unfold parsePart
  have h1 : ¬(k.head? = some '[' ∧ k.getLast? = some ']') := by
    rintro ⟨hh, -⟩
    cases k with
    | nil => simp at hh
    | cons c rest =>
      simp at hh
      exact h (hh ▸ List.mem_cons_self c rest)
  rw [if_neg h1]
  have h2 : k.findIdx? (· = '[') = none := by
    rw [List.findIdx?_eq_none_iff]
    intro x hx
    have : x ≠ '[' := fun he => h (he ▸ hx)
    simp [this]
  rw [h2]

theorem parsePath_bracketOnly (inner : List Char)
    (h : ∀ c ∈ inner, c ≠ '[' ∧ c ≠ ']') :
    parsePath ('[' :: (inner ++ [']'])) = ['[' :: (inner ++ [']'])] := by
  rw [parsePath_eq_finish, parseFold_bracketSeg inner [] [] false h]
  simp [finishParse, flushCur]

theorem splitLast_spec (l : List (List Char)) :
    ∀ (front : List (List Char)) (x : List Char),
      splitLast l = some (front, x) → l = front ++ [x] := by
  induction l with
  | nil => intro front x h; simp [splitLast] at h
  | cons y rest ih =>
    intro front x h
    cases rest with
    | nil =>
      simp [splitLast] at h
      obtain ⟨rfl, rfl⟩ := h
      rfl
    | cons z rest2 =>
      have hdef : splitLast (y :: z :: rest2) =
          (match splitLast (z :: rest2) with
           | some (front3, l3) => some (y :: front3, l3)
           | none => none) := rfl
      rw [hdef] at h
      cases hsp : splitLast (z :: rest2) with
      | none => rw [hsp] at h; simp at h
      | some pr =>
        rcases pr with ⟨front2, x2⟩
        rw [hsp] at h
        simp only [Option.some.injEq, Prod.mk.injEq] at h
        obtain ⟨hf, hx⟩ := h
        rw [← hf, ← hx, ih front2 x2 hsp]
        rfl

/-- Claim C5, confirmed.  Three parts.  (1) `Set` on an array with an
index-only part `[i]` whose index is out of bounds (negative or at least the
length) fails with the `setIndexOutOfRange` error and leaves the tree
unchanged.  (2) A successful `setValueAtPath` on an array never changes the
array's length (`Set` never grows an array).  (3) A successful
`SetValueByPath` implies the parent path (all parts but the last, re-joined
with dots) already resolved in the original tree: `Set` never creates
intermediate containers. -/
theorem c5_set_out_of_bounds_fails :
    (∀ (es : List Val) (i : Int) (v : Val),
      (i < 0 ∨ i ≥ (es.length : Int)) →
      SetValueByPath (.arr es) ('[' :: (intToChars i ++ [']'])) v =
        .error (.setIndexOutOfRange i) ∧
      setOrKeep (.arr es) ('[' :: (intToChars i ++ [']'])) v = .arr es) ∧
    (∀ (es : List Val) (part : List Char) (v r : Val),
      setValueAtPath (.arr es) part v = .ok r →
      ∃ es2, r = .arr es2 ∧ es2.length = es.length) ∧
    (∀ (d : Val) (p : List Char) (v d2 : Val),
      SetValueByPath d p v = .ok d2 →
      ∃ w, GetValueByPath d (dotJoin (parsePath p).dropLast) = .ok w) := by
  refine ⟨?_, ?_, ?_⟩
  · intro es i v hb
    have hplain := intToChars_plain i
    have hparse : parsePath ('[' :: (intToChars i ++ [']'])) =
        ['[' :: (intToChars i ++ [']'])] :=
      parsePath_bracketOnly _ (fun c hc => ⟨(hplain c hc).2.1, (hplain c hc).2.2⟩)
    have hpart : parsePart ('[' :: (intToChars i ++ [']'])) = ([], i, true) :=
      parsePart_bracket _ i (atoi_intToChars i)
    have hset : SetValueByPath (.arr es) ('[' :: (intToChars i ++ [']'])) v =
        .error (.setIndexOutOfRange i) := by
      unfold SetValueByPath
      rw [if_neg (by simp)]
      rw [hparse]
      show setValueAtPath (.arr es) ('[' :: (intToChars i ++ [']'])) v = _
      unfold setValueAtPath
      rw [hpart]
      simp [hb]
    refine ⟨hset, ?_⟩
    unfold setOrKeep
    rw [hset]
  · intro es part v r h
    unfold setValueAtPath at h
    rcases hp : parsePart part with ⟨key, index, isArr⟩
    rw [hp] at h
    cases isArr
    · simp at h
    · by_cases hb : index < 0 ∨ index ≥ (es.length : Int)
      · simp [hb] at h
      · simp [hb] at h
        exact ⟨es.set index.toNat v, h.symm, by simp⟩
  · intro d p v d2 h
    unfold SetValueByPath at h
    by_cases hp0 : p = []
    · rw [if_pos hp0] at h; simp at h
    · rw [if_neg hp0] at h
      split at h
      · exact absurd h (by simp)
      · rename_i single heq
        rw [heq]
        exact ⟨d, rfl⟩
      · rename_i a b rest heq
        rw [heq]
        split at h
        · exact absurd h (by simp)
        · rename_i front lastP heq2
          have hfl := splitLast_spec _ front lastP heq2
          rw [hfl, List.dropLast_concat]
          split at h
          · exact absurd h (by simp)
          · rename_i parent heq3
            exact ⟨parent, heq3⟩

/-- Witness for claim C5 at a concrete out-of-bounds write: index 5 into a
2-element array. -/
theorem c5_witness :
    SetValueByPath (Val.arr [Val.vnull, Val.vnull]) (sl ("[5]")) (Val.vstr (sl ("z"))) =
      .error (.setIndexOutOfRange 5) ∧
    setOrKeep (Val.arr [Val.vnull, Val.vnull]) (sl ("[5]")) (Val.vstr (sl ("z"))) =
      .arr [Val.vnull, Val.vnull] := by
  have h := c5_set_out_of_bounds_fails.1 [Val.vnull, Val.vnull] 5 (Val.vstr (sl ("z")))
    (by decide)
  have he : ('[' :: (intToChars 5 ++ [']'])) = sl ("[5]") := by decide
  rw [he] at h
  exact h

/-- Witness for the universal half of claim C8, at the part `"[0]"` of the
tokenized `"key[0]"`. -/
theorem c8_witness : ∃ t, sl ("[0]") = '[' :: t ∧ '[' ∉ t :=
  c8_tokenizer_splits_key_and_bracket.2 (sl ("key[0]")) (sl ("[0]")) (by decide) (by decide)

/-- Abstract path segment recorded by the recursive walks: an object key or an
array index. -/
inductive Seg where
  | key : List Char → Seg
  | idx : Nat → Seg

/-- The tokenizer part a segment corresponds to. -/
def segPart : Seg → List Char
  | .key k => k
  | .idx n => '[' :: (natToChars n ++ [']'])

/-- One step of the path-string accumulation in the recursive walks: keys join
with a dot except at the root, indices append a bracketed decimal. -/
def segRender (cur : List Char) : Seg → List Char
  | .key k => (if cur ≠ [] then cur ++ ['.'] else cur) ++ k
  | .idx n => cur ++ '[' :: (natToChars n ++ [']'])

mutual

/-- All segment lists the recursive walk visits below a value. -/
def allSegsV : Val → List (List Seg)
  | .obj fs => allSegsF fs
  | .arr es => allSegsE es 0
  | _ => []

/-- Object part of `allSegsV`. -/
def allSegsF : List (List Char × Val) → List (List Seg)
  | [] => []
  | (k, v) :: rest =>
    ([Seg.key k] :: (allSegsV v).map (fun segs => Seg.key k :: segs)) ++ allSegsF rest

/-- Array part of `allSegsV`, carrying the next index. -/
def allSegsE : List Val → Nat → List (List Seg)
  | [], _ => []
  | v :: rest, i =>
    ([Seg.idx i] :: (allSegsV v).map (fun segs => Seg.idx i :: segs)) ++ allSegsE rest (i + 1)

end

mutual

theorem allSegsV_render : ∀ (v : Val) (cur : List Char),
    getAllPathsRecursive v cur = (allSegsV v).map (fun segs => segs.foldl segRender cur)
  | .vnull, _ => rfl
  | .vbool _, _ => rfl
  | .vnum _, _ => rfl
  | .vstr _, _ => rfl
  | .obj fs, cur => by
    simp only [getAllPathsRecursive, allSegsV]
    exact allSegsF_render fs cur
  | .arr es, cur => by
    simp only [getAllPathsRecursive, allSegsV]
    exact allSegsE_render es 0 cur

theorem allSegsF_render : ∀ (fs : List (List Char × Val)) (cur : List Char),
    getAllPathsFields fs cur = (allSegsF fs).map (fun segs => segs.foldl segRender cur)
  | [], _ => rfl
  | (k, v) :: rest, cur => by
    simp only [getAllPathsFields, allSegsF, List.map_append, List.map_cons, List.map_map]
    rw [allSegsV_render v, allSegsF_render rest cur]
    simp [segRender, Function.comp]

theorem allSegsE_render : ∀ (es : List Val) (i : Nat) (cur : List Char),
    getAllPathsElems es i cur = (allSegsE es i).map (fun segs => segs.foldl segRender cur)
  | [], _, _ => rfl
  | v :: rest, i, cur => by
    simp only [getAllPathsElems, allSegsE, List.map_append, List.map_cons, List.map_map]
    rw [allSegsV_render v, allSegsE_render rest (i + 1) cur]
    simp [segRender, Function.comp]

end

/-- The amended claim C10's key condition: a nonempty key containing none of
the three characters the tokenizer treats specially. -/
def cleanKey (k : List Char) : Bool :=
  !k.isEmpty && k.all (fun c => c ≠ '.' && c ≠ '[' && c ≠ ']')

/-- Key list of an object. -/
def keysOf (fs : List (List Char × Val)) : List (List Char) := fs.map Prod.fst

/-- Pairwise-distinct keys (the invariant every Go map satisfies). -/
def nodupKeys : List (List Char) → Bool
  | [] => true
  | k :: rest => !(rest.contains k) && nodupKeys rest

mutual

/-- Trees whose object keys (at all depths) are clean and pairwise distinct:
the hypothesis of the amended claim C10 plus the Go map well-formedness. -/
def cleanV : Val → Bool
  | .obj fs => nodupKeys (keysOf fs) && cleanF fs
  | .arr es => cleanE es
  | _ => true

/-- Object part of `cleanV`. -/
def cleanF : List (List Char × Val) → Bool
  | [] => true
  | (k, v) :: rest => cleanKey k && cleanV v && cleanF rest

/-- Array part of `cleanV`. -/
def cleanE : List Val → Bool
  | [] => true
  | v :: rest => cleanV v && cleanE rest

end

/-- Segments an amended-C10 walk can produce: clean keys, any index. -/
def goodSeg : Seg → Prop
  | .key k => k ≠ [] ∧ ∀ c ∈ k, c ≠ '.' ∧ c ≠ '[' ∧ c ≠ ']'
  | .idx _ => True

theorem cleanKey_goodSeg (k : List Char) (h : cleanKey k = true) : goodSeg (.key k) := by
  unfold cleanKey at h
  rw [Bool.and_eq_true] at h
  refine ⟨by simpa using h.1, ?_⟩
  intro c hc
  have := List.all_eq_true.1 h.2 c hc
  simp only [Bool.and_eq_true, decide_eq_true_eq] at this
  exact ⟨this.1.1, this.1.2, this.2⟩

theorem cleanF_mem (fs : List (List Char × Val)) :
    ∀ (k : List Char) (v : Val), cleanF fs = true → (k, v) ∈ fs →
      cleanKey k = true ∧ cleanV v = true := by
  induction fs with
  | nil => simp
  | cons hd rest ih =>
    rcases hd with ⟨k1, w1⟩
    intro k v hc hm
    rw [show cleanF ((k1, w1) :: rest) = (cleanKey k1 && cleanV w1 && cleanF rest) from rfl,
      Bool.and_eq_true, Bool.and_eq_true] at hc
    rcases List.mem_cons.1 hm with heq | hm2
    · obtain ⟨rfl, rfl⟩ := Prod.mk.injEq _ _ _ _ ▸ heq
      exact ⟨hc.1.1, hc.1.2⟩
    · exact ih k v hc.2 hm2

theorem cleanE_mem (es : List Val) :
    ∀ (v : Val), cleanE es = true → v ∈ es → cleanV v = true := by
  induction es with
  | nil => simp
  | cons e rest ih =>
    intro v hc hm
    rw [show cleanE (e :: rest) = (cleanV e && cleanE rest) from rfl, Bool.and_eq_true] at hc
    rcases List.mem_cons.1 hm with rfl | hm2
    · exact hc.1
    · exact ih v hc.2 hm2

theorem nodupKeys_lookup (fs : List (List Char × Val)) :
    ∀ (k : List Char) (v : Val), nodupKeys (keysOf fs) = true → (k, v) ∈ fs →
      lookupField fs k = some v := by
  induction fs with
  | nil => simp
  | cons hd rest ih =>
    rcases hd with ⟨k1, w1⟩
    intro k v hnd hm
    rw [show keysOf ((k1, w1) :: rest) = k1 :: keysOf rest from rfl,
      show nodupKeys (k1 :: keysOf rest) = (!((keysOf rest).contains k1) && nodupKeys (keysOf rest)) from rfl,
      Bool.and_eq_true, Bool.not_eq_true'] at hnd
    rcases List.mem_cons.1 hm with heq | hm2
    · obtain ⟨rfl, rfl⟩ := Prod.mk.injEq _ _ _ _ ▸ heq
      simp [lookupField]
    · by_cases hkk : k1 = k
      · subst hkk
        exfalso
        have hkmem : k1 ∈ keysOf rest := by
          exact List.mem_map_of_mem Prod.fst hm2
        have := List.elem_eq_true_of_mem hkmem
        rw [show (keysOf rest).contains k1 = (keysOf rest).elem k1 from rfl, this] at hnd
        exact Bool.noConfusion hnd.1
      · rw [show lookupField ((k1, w1) :: rest) k = if k1 = k then some w1 else lookupField rest k from rfl,
          if_neg hkk]
        exact ih k v hnd.2 hm2

theorem allSegsF_shape (fs : List (List Char × Val)) :
    ∀ segs ∈ allSegsF fs, ∃ (k : List Char) (v : Val) (segs2 : List Seg),
      segs = .key k :: segs2 ∧ (k, v) ∈ fs ∧ (segs2 = [] ∨ segs2 ∈ allSegsV v) := by
  induction fs with
  | nil => simp [allSegsF]
  | cons hd rest ih =>
    rcases hd with ⟨k1, w1⟩
    intro segs hm
    rw [show allSegsF ((k1, w1) :: rest) =
      ([Seg.key k1] :: (allSegsV w1).map (fun segs => Seg.key k1 :: segs)) ++ allSegsF rest
      from rfl] at hm
    rcases List.mem_append.1 hm with hm | hm
    · rcases List.mem_cons.1 hm with rfl | hm2
      · exact ⟨k1, w1, [], rfl, List.mem_cons_self _ _, Or.inl rfl⟩
      · obtain ⟨segs2, hs2, rfl⟩ := List.mem_map.1 hm2
        exact ⟨k1, w1, segs2, rfl, List.mem_cons_self _ _, Or.inr hs2⟩
    · obtain ⟨k, v, segs2, rfl, hkv, hrec⟩ := ih segs hm
      exact ⟨k, v, segs2, rfl, List.mem_cons_of_mem _ hkv, hrec⟩

theorem allSegsE_shape (es : List Val) :
    ∀ (i : Nat), ∀ segs ∈ allSegsE es i, ∃ (m : Nat) (v : Val) (segs2 : List Seg),
      segs = .idx (i + m) :: segs2 ∧ es.get? m = some v ∧
      (segs2 = [] ∨ segs2 ∈ allSegsV v) := by
  induction es with
  | nil => simp [allSegsE]
  | cons e rest ih =>
    intro i segs hm
    rw [show allSegsE (e :: rest) i =
      ([Seg.idx i] :: (allSegsV e).map (fun segs => Seg.idx i :: segs)) ++ allSegsE rest (i + 1)
      from rfl] at hm
    rcases List.mem_append.1 hm with hm | hm
    · rcases List.mem_cons.1 hm with rfl | hm2
      · exact ⟨0, e, [], by simp, rfl, Or.inl rfl⟩
      · obtain ⟨segs2, hs2, rfl⟩ := List.mem_map.1 hm2
        exact ⟨0, e, segs2, by simp, rfl, Or.inr hs2⟩
    · obtain ⟨m, v, segs2, rfl, hget, hrec⟩ := ih (i + 1) segs hm
      exact ⟨m + 1, v, segs2, by simp; omega, by simpa using hget, hrec⟩

mutual

theorem goodV : ∀ (v : Val), cleanV v = true →
    ∀ segs ∈ allSegsV v, segs ≠ [] ∧ ∀ s ∈ segs, goodSeg s
  | .vnull => by intro h segs hm; simp [allSegsV] at hm
  | .vbool _ => by intro h segs hm; simp [allSegsV] at hm
  | .vnum _ => by intro h segs hm; simp [allSegsV] at hm
  | .vstr _ => by intro h segs hm; simp [allSegsV] at hm
  | .obj fs => by
    intro h segs hm
    rw [show cleanV (.obj fs) = (nodupKeys (keysOf fs) && cleanF fs) from rfl,
      Bool.and_eq_true] at h
    exact goodF fs h.2 segs hm
  | .arr es => by
    intro h segs hm
    exact goodE es h 0 segs hm

theorem goodF : ∀ (fs : List (List Char × Val)), cleanF fs = true →
    ∀ segs ∈ allSegsF fs, segs ≠ [] ∧ ∀ s ∈ segs, goodSeg s
  | [] => by intro h segs hm; simp [allSegsF] at hm
  | (k1, w1) :: rest => by
    intro h segs hm
    rw [show cleanF ((k1, w1) :: rest) = (cleanKey k1 && cleanV w1 && cleanF rest) from rfl,
      Bool.and_eq_true, Bool.and_eq_true] at h
    rw [show allSegsF ((k1, w1) :: rest) =
      ([Seg.key k1] :: (allSegsV w1).map (fun segs => Seg.key k1 :: segs)) ++ allSegsF rest
      from rfl] at hm
    rcases List.mem_append.1 hm with hm | hm
    · rcases List.mem_cons.1 hm with rfl | hm2
      · refine ⟨by simp, ?_⟩
        intro s hs
        rcases List.mem_singleton.1 hs with rfl
        exact cleanKey_goodSeg k1 h.1.1
      · obtain ⟨segs2, hs2, rfl⟩ := List.mem_map.1 hm2
        have hrec := goodV w1 h.1.2 segs2 hs2
        refine ⟨by simp, ?_⟩
        intro s hs
        rcases List.mem_cons.1 hs with rfl | hs3
        · exact cleanKey_goodSeg k1 h.1.1
        · exact hrec.2 s hs3
    · exact goodF rest h.2 segs hm

theorem goodE : ∀ (es : List Val), cleanE es = true →
    ∀ (i : Nat), ∀ segs ∈ allSegsE es i, segs ≠ [] ∧ ∀ s ∈ segs, goodSeg s
  | [] => by intro h i segs hm; simp [allSegsE] at hm
  | e :: rest => by
    intro h i segs hm
    rw [show cleanE (e :: rest) = (cleanV e && cleanE rest) from rfl, Bool.and_eq_true] at h
    rw [show allSegsE (e :: rest) i =
      ([Seg.idx i] :: (allSegsV e).map (fun segs => Seg.idx i :: segs)) ++ allSegsE rest (i + 1)
      from rfl] at hm
    rcases List.mem_append.1 hm with hm | hm
    · rcases List.mem_cons.1 hm with rfl | hm2
      · exact ⟨by simp, by intro s hs; rcases List.mem_singleton.1 hs with rfl; trivial⟩
      · obtain ⟨segs2, hs2, rfl⟩ := List.mem_map.1 hm2
        have hrec := goodV e h.1 segs2 hs2
        refine ⟨by simp, ?_⟩
        intro s hs
        rcases List.mem_cons.1 hs with rfl | hs3
        · trivial
        · exact hrec.2 s hs3
    · exact goodE rest h.2 (i + 1) segs hm

end

theorem getAtSegs_obj_key (fs : List (List Char × Val)) (k : List Char)
    (rest : List (List Char)) (j : Nat) (v : Val)
    (hk : '[' ∉ k) (hl : lookupField fs k = some v) :
    getAtSegs (.obj fs) (k :: rest) j = getAtSegs v rest (j + 1) := by
  simp only [getAtSegs]
  rw [parsePart_key k hk]
  simp [hl]

theorem getAtSegs_arr_idx (es : List Val) (n : Nat) (rest : List (List Char)) (j : Nat)
    (v : Val) (hget : es.get? n = some v) :
    getAtSegs (.arr es) (('[' :: (natToChars n ++ [']'])) :: rest) j =
      getAtSegs v rest (j + 1) := by
  have hlen : n < es.length := by
    by_contra hge
    rw [List.get?_len_le (Nat.le_of_not_lt hge)] at hget
    exact Option.noConfusion hget
  simp only [getAtSegs]
  rw [parsePart_bracket _ (n : Int) (atoi_natToChars n)]
  have h1 : ¬((n : Int) < 0) := by omega
  have h2 : ¬(es.length ≤ n) := by omega
  have hget2 : es[n]? = some v := by
    rw [← List.get?_eq_getElem?]
    exact hget
  simp [hget2, h1, h2]

mutual

theorem resolveV : ∀ (v : Val), cleanV v = true →
    ∀ segs ∈ allSegsV v, ∀ j : Nat, ∃ w, getAtSegs v (segs.map segPart) j = .ok w
  | .vnull => by intro h segs hm; simp [allSegsV] at hm
  | .vbool _ => by intro h segs hm; simp [allSegsV] at hm
  | .vnum _ => by intro h segs hm; simp [allSegsV] at hm
  | .vstr _ => by intro h segs hm; simp [allSegsV] at hm
  | .obj fs => by
    intro h segs hm j
    rw [show cleanV (.obj fs) = (nodupKeys (keysOf fs) && cleanF fs) from rfl,
      Bool.and_eq_true] at h
    obtain ⟨k, v0, segs2, rfl, hkv, hrec⟩ := allSegsF_shape fs segs hm
    obtain ⟨hck, _⟩ := cleanF_mem fs k v0 h.2 hkv
    have hgood := cleanKey_goodSeg k hck
    have hnb : '[' ∉ k := fun hmem => (hgood.2 '[' hmem).2.1 rfl
    have hstep := getAtSegs_obj_key fs k (segs2.map segPart) j v0 hnb
      (nodupKeys_lookup fs k v0 h.1 hkv)
    rw [List.map_cons, show segPart (Seg.key k) = k from rfl, hstep]
    rcases hrec with rfl | hs2
    · exact ⟨v0, by simp [getAtSegs]⟩
    · exact resolveF fs h.2 k v0 hkv segs2 hs2 (j + 1)
  | .arr es => by
    intro h segs hm j
    obtain ⟨m, v0, segs2, rfl, hget, hrec⟩ := allSegsE_shape es 0 segs hm
    have hget0 : es.get? (0 + m) = some v0 := by simpa using hget
    have hstep := getAtSegs_arr_idx es (0 + m) (segs2.map segPart) j v0 hget0
    rw [List.map_cons,
      show segPart (Seg.idx (0 + m)) = '[' :: (natToChars (0 + m) ++ [']']) from rfl, hstep]
    rcases hrec with rfl | hs2
    · exact ⟨v0, by simp [getAtSegs]⟩
    · exact resolveE es h v0 (List.get?_mem hget) segs2 hs2 (j + 1)

theorem resolveF : ∀ (fs : List (List Char × Val)), cleanF fs = true →
    ∀ (k : List Char) (v0 : Val), (k, v0) ∈ fs →
    ∀ segs ∈ allSegsV v0, ∀ j : Nat, ∃ w, getAtSegs v0 (segs.map segPart) j = .ok w
  | [] => by intro h k v0 hm; exact absurd hm (by simp)
  | (k1, w1) :: rest => by
    intro h k v0 hm segs hsegs j
    rw [show cleanF ((k1, w1) :: rest) = (cleanKey k1 && cleanV w1 && cleanF rest) from rfl,
      Bool.and_eq_true, Bool.and_eq_true] at h
    rcases List.mem_cons.1 hm with heq | hm2
    · have h2 : v0 = w1 := congrArg Prod.snd heq
      rw [h2] at hsegs ⊢
      exact resolveV w1 h.1.2 segs hsegs j
    · exact resolveF rest h.2 k v0 hm2 segs hsegs j

theorem resolveE : ∀ (es : List Val), cleanE es = true →
    ∀ (v0 : Val), v0 ∈ es →
    ∀ segs ∈ allSegsV v0, ∀ j : Nat, ∃ w, getAtSegs v0 (segs.map segPart) j = .ok w
  | [] => by intro h v0 hm; exact absurd hm (by simp)
  | e :: rest => by
    intro h v0 hm segs hsegs j
    rw [show cleanE (e :: rest) = (cleanV e && cleanE rest) from rfl, Bool.and_eq_true] at h
    rcases List.mem_cons.1 hm with heq | hm2
    · rw [heq] at hsegs ⊢
      exact resolveV e h.1 segs hsegs j
    · exact resolveE rest h.2 v0 hm2 segs hsegs j

end

/-- The characters a non-root segment contributes to the accumulated path. -/
def tailRenderSegs (segs : List Seg) : List Char :=
  (segs.map (fun s => match s with
    | .key k => '.' :: k
    | .idx n => '[' :: (natToChars n ++ [']']))).flatten

theorem foldl_segRender_ne (segs : List Seg) :
    ∀ (cur : List Char), cur ≠ [] →
      segs.foldl segRender cur = cur ++ tailRenderSegs segs := by
  induction segs with
  | nil => intro cur _; simp [tailRenderSegs]
  | cons s rest ih =>
    intro cur hcur
    cases s with
    | key k =>
      have hone : segRender cur (.key k) = cur ++ '.' :: k := by
        simp [segRender, hcur]
      rw [List.foldl_cons, hone, ih _ (by simp)]
      simp [tailRenderSegs]
    | idx n =>
      have hone : segRender cur (.idx n) = cur ++ '[' :: (natToChars n ++ [']']) := by
        simp [segRender]
      rw [List.foldl_cons, hone, ih _ (by simp)]
      simp [tailRenderSegs]

theorem goodSeg_key_plain (k : List Char) (h : goodSeg (.key k)) :
    ∀ c ∈ k, c ≠ '.' ∧ c ≠ '[' ∧ c ≠ ']' := h.2

theorem natToChars_brackets (n : Nat) :
    ∀ c ∈ natToChars n, c ≠ '[' ∧ c ≠ ']' :=
  fun c hc => ⟨(natToChars_plain n c hc).2.1, (natToChars_plain n c hc).2.2⟩

theorem parseFold_tailRender (segs : List Seg) :
    ∀ (parts : List (List Char)) (cur : List Char),
      (∀ s ∈ segs, goodSeg s) →
      finishParse (parseFold (tailRenderSegs segs) ⟨parts, cur, false⟩) =
        (parts ++ (if cur ≠ [] then [cur] else [])) ++ segs.map segPart := by
  induction segs with
  | nil =>
    intro parts cur _
    simp [tailRenderSegs, parseFold, finishParse, flushCur]
  | cons s rest ih =>
    intro parts cur h
    have hrest : ∀ x ∈ rest, goodSeg x := fun x hx => h x (List.mem_cons_of_mem s hx)
    cases s with
    | key k =>
      have hk := h (.key k) (List.mem_cons_self _ _)
      have hflat : tailRenderSegs (Seg.key k :: rest) = ('.' :: k) ++ tailRenderSegs rest := by
        simp [tailRenderSegs]
      rw [hflat, parseFold_append]
      have hstep : parseFold ('.' :: k) ⟨parts, cur, false⟩ =
          ⟨parts ++ (if cur ≠ [] then [cur] else []), [] ++ k, false⟩ := by
        show parseFold k (parseStep ⟨parts, cur, false⟩ '.') = _
        rw [parseStep_dot_out, parseFold_plainChars k _ _ _ (goodSeg_key_plain k hk)]
      rw [hstep]
      rw [show (([] : List Char) ++ k) = k from rfl]
      rw [ih _ k hrest, if_pos hk.1]
      simp [segPart]
    | idx n =>
      have hflat : tailRenderSegs (Seg.idx n :: rest) =
          ('[' :: (natToChars n ++ [']'])) ++ tailRenderSegs rest := by
        simp [tailRenderSegs]
      rw [hflat, parseFold_append,
        parseFold_bracketSeg (natToChars n) parts cur false (natToChars_brackets n)]
      rw [ih _ [] hrest]
      simp [segPart]

theorem parsePath_renderPath (segs : List Seg) (hne : segs ≠ [])
    (h : ∀ s ∈ segs, goodSeg s) :
    parsePath (segs.foldl segRender []) = segs.map segPart := by
  cases segs with
  | nil => exact absurd rfl hne
  | cons s rest =>
    have hrest : ∀ x ∈ rest, goodSeg x := fun x hx => h x (List.mem_cons_of_mem s hx)
    cases s with
    | key k =>
      have hk := h (.key k) (List.mem_cons_self _ _)
      have hone : segRender [] (.key k) = k := by simp [segRender]
      rw [List.foldl_cons, hone, foldl_segRender_ne rest k hk.1, parsePath_eq_finish,
        parseFold_append, parseFold_plainChars k [] [] false (goodSeg_key_plain k hk)]
      rw [show (([] : List Char) ++ k) = k from rfl]
      rw [parseFold_tailRender rest [] k hrest, if_pos hk.1]
      simp [segPart]
    | idx n =>
      have hone : segRender [] (.idx n) = '[' :: (natToChars n ++ [']']) := by
        simp [segRender]
      rw [List.foldl_cons, hone, foldl_segRender_ne rest _ (by simp), parsePath_eq_finish,
        parseFold_append,
        parseFold_bracketSeg (natToChars n) [] [] false (natToChars_brackets n)]
      rw [parseFold_tailRender rest _ [] hrest]
      simp [segPart]

theorem renderPath_ne_nil (segs : List Seg) (hne : segs ≠ [])
    (h : ∀ s ∈ segs, goodSeg s) :
    segs.foldl segRender [] ≠ [] := by
  cases segs with
  | nil => exact absurd rfl hne
  | cons s rest =>
    cases s with
    | key k =>
      have hk := h (.key k) (List.mem_cons_self _ _)
      have hone : segRender [] (.key k) = k := by simp [segRender]
      rw [List.foldl_cons, hone, foldl_segRender_ne rest k hk.1]
      simp [hk.1]
    | idx n =>
      have hone : segRender [] (.idx n) = '[' :: (natToChars n ++ [']']) := by
        simp [segRender]
      rw [List.foldl_cons, hone, foldl_segRender_ne rest _ (by simp)]
      simp

/-- Claim C10, counterexample.  Two trees whose keys contain neither `.` nor
`[` defeat the claim: with the key `"x]"` (the `]` is silently dropped by the
tokenizer) the single returned path does not resolve, and with an empty key
the returned paths include the empty root path, and the other returned path
does not resolve either. -/
theorem c10_counterexample :
    (GetAllPaths (Val.obj [(sl ("x]"), Val.vnum 1)]) = [sl ("x]")] ∧
      ('.' ∉ sl ("x]")) ∧ ('[' ∉ sl ("x]")) ∧
      HasPath (Val.obj [(sl ("x]"), Val.vnum 1)]) (sl ("x]")) = false) ∧
    (GetAllPaths (Val.obj [([], Val.obj [(sl ("x"), Val.vnum 1)])]) = [[], sl ("x")] ∧
      HasPath (Val.obj [([], Val.obj [(sl ("x"), Val.vnum 1)])]) (sl ("x")) = false ∧
      [] ∈ GetAllPaths (Val.obj [([], Val.obj [(sl ("x"), Val.vnum 1)])])) :=
  ⟨⟨rfl, by decide, by decide, rfl⟩, ⟨rfl, rfl, by decide⟩⟩

/-- Claim C10, amended.  For every tree whose object keys (at all depths) are
nonempty, contain none of `.`, `[`, `]`, and are pairwise distinct, every path
string returned by `GetAllPaths` resolves against the same tree (`HasPath` is
true) and none of the returned paths is the empty root path. -/
theorem c10_allPaths_resolve (t : Val) (h : cleanV t = true) :
    ∀ p ∈ GetAllPaths t, HasPath t p = true ∧ p ≠ [] := by
  intro p hp
  rw [show GetAllPaths t = getAllPathsRecursive t [] from rfl, allSegsV_render t []] at hp
  obtain ⟨segs, hsegs, rfl⟩ := List.mem_map.1 hp
  obtain ⟨hne, hgood⟩ := goodV t h segs hsegs
  have hrender := parsePath_renderPath segs hne hgood
  have hpne := renderPath_ne_nil segs hne hgood
  refine ⟨?_, hpne⟩
  obtain ⟨w, hw⟩ := resolveV t h segs hsegs 0
  unfold HasPath GetValueByPath
  rw [if_neg hpne, hrender, hw]

/-- Witness for the amended claim C10 on the clean tree `{"a":["x"]}` and its
returned path `"a[0]"`. -/
theorem c10_witness :
    HasPath (Val.obj [(sl ("a"), Val.arr [Val.vstr (sl ("x"))])]) (sl ("a[0]")) = true ∧
    sl ("a[0]") ≠ [] :=
  c10_allPaths_resolve (Val.obj [(sl ("a"), Val.arr [Val.vstr (sl ("x"))])]) (by decide)
    (sl ("a[0]")) (by decide)

theorem lookupField_replaceField (fs : List (List Char × Val)) (k : List Char)
    (u v2 : Val) (h : lookupField fs k = some u) :
    lookupField (replaceField fs k v2) k = some v2 := by
  induction fs with
  | nil => simp [lookupField] at h
  | cons hd rest ih =>
    rcases hd with ⟨k1, w1⟩
    by_cases hk : k1 = k
    · simp [lookupField, replaceField, hk]
    · rw [show lookupField ((k1, w1) :: rest) k =
        (if k1 = k then some w1 else lookupField rest k) from rfl, if_neg hk] at h
      rw [show replaceField ((k1, w1) :: rest) k v2 =
        (if k1 = k then (k1, v2) :: rest else (k1, w1) :: replaceField rest k v2) from rfl,
        if_neg hk]
      rw [show lookupField ((k1, w1) :: replaceField rest k v2) k =
        (if k1 = k then some w1 else lookupField (replaceField rest k v2) k) from rfl,
        if_neg hk]
      exact ih h

theorem lookupField_setField (fs : List (List Char × Val)) (k : List Char) (v : Val) :
    lookupField (setField fs k v) k = some v := by
  induction fs with
  | nil => simp [setField, lookupField]
  | cons hd rest ih =>
    rcases hd with ⟨k1, w1⟩
    by_cases hk : k1 = k
    · simp [setField, lookupField, hk]
    · rw [show setField ((k1, w1) :: rest) k v =
        (if k1 = k then (k1, v) :: rest else (k1, w1) :: setField rest k v) from rfl,
        if_neg hk]
      rw [show lookupField ((k1, w1) :: setField rest k v) k =
        (if k1 = k then some w1 else lookupField (setField rest k v) k) from rfl,
        if_neg hk]
      exact ih

theorem findKeyInElems_writeKey (es : List Val) (k : List Char) (u v2 : Val)
    (h : findKeyInElems es k = some u) :
    findKeyInElems (writeKeyInElems es k v2) k = some v2 := by
  induction es with
  | nil => simp [findKeyInElems] at h
  | cons e rest ih =>
    cases e with
    | obj fs =>
      cases hl : lookupField fs k with
      | some w =>
        rw [show writeKeyInElems (Val.obj fs :: rest) k v2 =
          (match lookupField fs k with
           | some _ => Val.obj (replaceField fs k v2) :: rest
           | none => Val.obj fs :: writeKeyInElems rest k v2) from rfl, hl]
        rw [show findKeyInElems (Val.obj (replaceField fs k v2) :: rest) k =
          (match lookupField (replaceField fs k v2) k with
           | some v => some v
           | none => findKeyInElems rest k) from rfl,
          lookupField_replaceField fs k w v2 hl]
      | none =>
        rw [show findKeyInElems (Val.obj fs :: rest) k =
          (match lookupField fs k with
           | some v => some v
           | none => findKeyInElems rest k) from rfl, hl] at h
        rw [show writeKeyInElems (Val.obj fs :: rest) k v2 =
          (match lookupField fs k with
           | some _ => Val.obj (replaceField fs k v2) :: rest
           | none => Val.obj fs :: writeKeyInElems rest k v2) from rfl, hl]
        rw [show findKeyInElems (Val.obj fs :: writeKeyInElems rest k v2) k =
          (match lookupField fs k with
           | some v => some v
           | none => findKeyInElems (writeKeyInElems rest k v2) k) from rfl, hl]
        exact ih h
    | vnull =>
      rw [show findKeyInElems (Val.vnull :: rest) k = findKeyInElems rest k from rfl] at h
      rw [show writeKeyInElems (Val.vnull :: rest) k v2 =
        Val.vnull :: writeKeyInElems rest k v2 from rfl]
      rw [show findKeyInElems (Val.vnull :: writeKeyInElems rest k v2) k =
        findKeyInElems (writeKeyInElems rest k v2) k from rfl]
      exact ih h
    | vbool b =>
      exact ih h
    | vnum n =>
      exact ih h
    | vstr s =>
      exact ih h
    | arr es2 =>
      exact ih h

theorem get?_set_self (es : List Val) :
    ∀ (n : Nat) (v : Val), n < es.length → (es.set n v).get? n = some v := by
  induction es with
  | nil => intro n v h; simp at h
  | cons e rest ih =>
    intro n v h
    cases n with
    | zero => rfl
    | succ m =>
      show (rest.set m v).get? m = some v
      exact ih m v (by simpa using h)

theorem getAtSegs_append (as : List (List Char)) :
    ∀ (bs : List (List Char)) (v : Val) (j : Nat),
      getAtSegs v (as ++ bs) j =
        (getAtSegs v as j).bind (fun m => getAtSegs m bs (j + as.length)) := by
  induction as with
  | nil =>
    intro bs v j
    cases v <;> rfl
  | cons part rest ih =>
    intro bs v j
    have harith : j + (part :: rest).length = (j + 1) + rest.length := by
      simp only [List.length_cons]
      omega
    cases v with
    | vnull => rfl
    | vbool b => rfl
    | vnum n => rfl
    | vstr s => rfl
    | obj fs =>
      rcases hp : parsePart part with ⟨key, index, isArr⟩
      simp only [List.cons_append, getAtSegs, hp]
      cases isArr
      · show (match lookupField fs key with
            | some v => getAtSegs v (rest ++ bs) (j + 1)
            | none => Except.error (JErr.keyNotFound part j key)) =
          (match lookupField fs key with
            | some v => getAtSegs v rest (j + 1)
            | none => Except.error (JErr.keyNotFound part j key)).bind
            (fun m => getAtSegs m bs (j + (part :: rest).length))
        cases hl : lookupField fs key with
        | none => rfl
        | some u =>
          rw [harith]
          exact ih bs u (j + 1)
      · rfl
    | arr es =>
      rcases hp : parsePart part with ⟨key, index, isArr⟩
      simp only [List.cons_append, getAtSegs, hp]
      cases isArr
      · show (match findKeyInElems es key with
            | some v => getAtSegs v (rest ++ bs) (j + 1)
            | none => Except.error (JErr.keyNotFoundInArray part j key)) =
          (match findKeyInElems es key with
            | some v => getAtSegs v rest (j + 1)
            | none => Except.error (JErr.keyNotFoundInArray part j key)).bind
            (fun m => getAtSegs m bs (j + (part :: rest).length))
        cases hl : findKeyInElems es key with
        | none => rfl
        | some u =>
          rw [harith]
          exact ih bs u (j + 1)
      · show (if index < 0 ∨ index ≥ (es.length : Int)
              then Except.error (JErr.indexOutOfRange part j index)
              else getAtSegs ((es.get? index.toNat).getD Val.vnull) (rest ++ bs) (j + 1)) =
          (if index < 0 ∨ index ≥ (es.length : Int)
              then Except.error (JErr.indexOutOfRange part j index)
              else getAtSegs ((es.get? index.toNat).getD Val.vnull) rest (j + 1)).bind
            (fun m => getAtSegs m bs (j + (part :: rest).length))
        by_cases hb : index < 0 ∨ index ≥ (es.length : Int)
        · rw [if_pos hb, if_pos hb]
          rfl
        · rw [if_neg hb, if_neg hb, harith]
          exact ih bs _ (j + 1)

theorem modifyAtSegs_ok (segs : List (List Char)) :
    ∀ (v : Val) (f : Val → Except JErr Val) (w w2 : Val) (j1 j2 j3 : Nat),
      getAtSegs v segs j1 = .ok w → f w = .ok w2 →
      ∃ v2, modifyAtSegs v segs j2 f = .ok v2 ∧ getAtSegs v2 segs j3 = .ok w2 := by
  induction segs with
  | nil =>
    intro v f w w2 j1 j2 j3 hg hf
    rw [show getAtSegs v [] j1 = .ok v from by simp [getAtSegs]] at hg
    injection hg with hvw
    subst hvw
    exact ⟨w2, by simpa [modifyAtSegs] using hf, by simp [getAtSegs]⟩
  | cons part rest ih =>
    intro v f w w2 j1 j2 j3 hg hf
    cases v with
    | vnull => simp [getAtSegs] at hg
    | vbool b => simp [getAtSegs] at hg
    | vnum n => simp [getAtSegs] at hg
    | vstr s => simp [getAtSegs] at hg
    | obj fs =>
      rcases hp : parsePart part with ⟨key, index, isArr⟩
      cases isArr
      · simp only [getAtSegs, hp] at hg
        cases hl : lookupField fs key with
        | none => rw [hl] at hg; simp at hg
        | some u =>
          rw [hl] at hg
          have hg2 : getAtSegs u rest (j1 + 1) = .ok w := hg
          obtain ⟨u2, hmod, hget⟩ := ih u f w w2 (j1 + 1) (j2 + 1) (j3 + 1) hg2 hf
          refine ⟨.obj (replaceField fs key u2), ?_, ?_⟩
          · simp only [modifyAtSegs]
            rw [hp]
            simp only [hl, hmod]
            rfl
          · simp only [getAtSegs]
            rw [hp]
            simp only [lookupField_replaceField fs key u u2 hl]
            exact hget
      · simp only [getAtSegs, hp] at hg
        simp at hg
    | arr es =>
      rcases hp : parsePart part with ⟨key, index, isArr⟩
      cases isArr
      · simp only [getAtSegs, hp] at hg
        cases hl : findKeyInElems es key with
        | none => rw [hl] at hg; simp at hg
        | some u =>
          rw [hl] at hg
          have hg2 : getAtSegs u rest (j1 + 1) = .ok w := hg
          obtain ⟨u2, hmod, hget⟩ := ih u f w w2 (j1 + 1) (j2 + 1) (j3 + 1) hg2 hf
          refine ⟨.arr (writeKeyInElems es key u2), ?_, ?_⟩
          · simp only [modifyAtSegs]
            rw [hp]
            simp only [hl, hmod]
            rfl
          · simp only [getAtSegs]
            rw [hp]
            simp only [findKeyInElems_writeKey es key u u2 hl]
            exact hget
      · simp only [getAtSegs, hp] at hg
        by_cases hb : index < 0 ∨ index ≥ (es.length : Int)
        · rw [if_pos hb] at hg
          simp at hg
        · rw [if_neg hb] at hg
          obtain ⟨u, hu⟩ : ∃ u, es.get? index.toNat = some u := by
            cases hq : es.get? index.toNat with
            | some u => exact ⟨u, rfl⟩
            | none =>
              rw [List.get?_eq_none] at hq
              omega
          rw [hu] at hg
          have hg2 : getAtSegs u rest (j1 + 1) = .ok w := hg
          obtain ⟨u2, hmod, hget⟩ := ih u f w w2 (j1 + 1) (j2 + 1) (j3 + 1) hg2 hf
          have hlen : index.toNat < es.length := by omega
          refine ⟨.arr (es.set index.toNat u2), ?_, ?_⟩
          · simp only [modifyAtSegs]
            rw [hp]
            show (if index < 0 ∨ index ≥ (es.length : Int)
                then Except.error (JErr.indexOutOfRange part j2 index)
                else (modifyAtSegs ((es.get? index.toNat).getD Val.vnull) rest (j2 + 1) f).map
                  (fun v2 => Val.arr (es.set index.toNat v2))) = _
            rw [if_neg hb, hu]
            show (modifyAtSegs u rest (j2 + 1) f).map
              (fun v2 => Val.arr (es.set index.toNat v2)) = _
            rw [hmod]
            rfl
          · simp only [getAtSegs]
            rw [hp]
            show (if index < 0 ∨ index ≥ ((es.set index.toNat u2).length : Int)
                then Except.error (JErr.indexOutOfRange part j3 index)
                else getAtSegs
                  (((es.set index.toNat u2).get? index.toNat).getD Val.vnull)
                  rest (j3 + 1)) = Except.ok w2
            rw [List.length_set, if_neg hb, get?_set_self es index.toNat u2 hlen]
            exact hget

theorem setAt_get (parent : Val) (part : List Char) (j j2 : Nat) (w v parent2 : Val)
    (hg : getAtSegs parent [part] j = .ok w)
    (hs : setValueAtPath parent part v = .ok parent2) :
    getAtSegs parent2 [part] j2 = .ok v := by
  rcases hp : parsePart part with ⟨key, index, isArr⟩
  cases parent with
  | vnull => simp [getAtSegs] at hg
  | vbool b => simp [getAtSegs] at hg
  | vnum n => simp [getAtSegs] at hg
  | vstr s => simp [getAtSegs] at hg
  | obj fs =>
    cases isArr
    · unfold setValueAtPath at hs
      rw [hp] at hs
      have hs2 : Except.ok (Val.obj (setField fs key v)) = Except.ok parent2 := hs
      injection hs2 with hp2
      subst hp2
      simp only [getAtSegs]
      rw [hp]
      simp only [lookupField_setField fs key v]
    · simp [setValueAtPath, hp] at hs
  | arr es =>
    cases isArr
    · simp [setValueAtPath, hp] at hs
    · simp only [getAtSegs, hp] at hg
      by_cases hb : index < 0 ∨ index ≥ (es.length : Int)
      · rw [if_pos hb] at hg
        simp at hg
      · unfold setValueAtPath at hs
        rw [hp] at hs
        have hs2 : (if index < 0 ∨ index ≥ (es.length : Int)
            then Except.error (JErr.setIndexOutOfRange index)
            else Except.ok (Val.arr (es.set index.toNat v))) = Except.ok parent2 := hs
        rw [if_neg hb] at hs2
        injection hs2 with hp2
        subst hp2
        have hlen : index.toNat < es.length := by omega
        simp only [getAtSegs]
        rw [hp]
        show (if index < 0 ∨ index ≥ ((es.set index.toNat v).length : Int)
            then Except.error (JErr.indexOutOfRange part j2 index)
            else Except.ok (((es.set index.toNat v).get? index.toNat).getD Val.vnull)) =
          Except.ok v
        rw [List.length_set, if_neg hb, get?_set_self es index.toNat v hlen]
        rfl

/-- The tree `{"a.b":{"x":1},"a":{"b":{"x":9}}}` used in the second instance of
the C2 counterexample: the path `"[a.b[x"` reads through the `"a.b"` key but
`Set`'s dot-rejoined parent `"a.b"` re-tokenizes to `["a","b"]` and writes
somewhere else. -/
def c2T : Val :=
  .obj [(sl ("a.b"), .obj [(sl ("x"), .vnum 1)]),
        (sl ("a"), .obj [(sl ("b"), .obj [(sl ("x"), .vnum 9)])])]

/-- The tree `SetValueByPath c2T "[a.b[x" 7` actually produces: the write
landed under `"a"."b"."x"`, not under the `"a.b"` key that `Get` reads. -/
def c2T2 : Val :=
  .obj [(sl ("a.b"), .obj [(sl ("x"), .vnum 1)]),
        (sl ("a"), .obj [(sl ("b"), .obj [(sl ("x"), .vnum 7)])])]

/-- Claim C2, counterexample.  Two instances.  (1) On the empty path `Get`
succeeds (returning the tree) but `Set` fails with `emptyPath` and leaves the
tree unchanged, so the subsequent `Get` does not return the written value.
(2) On the tree `{"a.b":{"x":1},"a":{"b":{"x":9}}}` and path `"[a.b[x"`
(which tokenizes to `["a.b","x"]`), `Get` succeeds with 1 and `Set` even
succeeds — but it resolves its dot-rejoined parent `"a.b"` as `["a","b"]` and
writes elsewhere, so `Get` after `Set` still returns 1, not the written 7. -/
theorem c2_counterexample :
    (GetValueByPath (Val.obj [(sl ("a"), Val.vstr (sl ("b")))]) [] =
        .ok (Val.obj [(sl ("a"), Val.vstr (sl ("b")))]) ∧
      GetValueByPath
          (setOrKeep (Val.obj [(sl ("a"), Val.vstr (sl ("b")))]) [] (Val.vstr (sl ("z")))) [] ≠
        .ok (Val.vstr (sl ("z")))) ∧
    (GetValueByPath c2T (sl ("[a.b[x")) = .ok (Val.vnum 1) ∧
      SetValueByPath c2T (sl ("[a.b[x")) (Val.vnum 7) = .ok c2T2 ∧
      GetValueByPath (setOrKeep c2T (sl ("[a.b[x")) (Val.vnum 7)) (sl ("[a.b[x")) =
        .ok (Val.vnum 1)) := by
  refine ⟨⟨rfl, ?_⟩, rfl, rfl, rfl⟩
  intro h
  have h2 : Except.ok (Val.obj [(sl ("a"), Val.vstr (sl ("b")))]) =
      (Except.ok (Val.vstr (sl ("z"))) : Except JErr Val) := h
  injection h2 with h3
  exact Val.noConfusion h3

/-- Claim C2, amended.  If `Get(t,p)` succeeds, `Set(t,p,v)` also succeeds,
and the dot-rejoined parent prefix re-tokenizes to the same parts (which
claim C9's amended statement guarantees whenever the tokenized parts of `p`
contain no dot), then `Get` on the updated tree returns exactly `v`. -/
theorem c2_set_get_round_trip (t : Val) (p : List Char) (v w t2 : Val)
    (hg : GetValueByPath t p = .ok w)
    (hs : SetValueByPath t p v = .ok t2)
    (hr : parsePath (dotJoin (parsePath p).dropLast) = (parsePath p).dropLast) :
    GetValueByPath t2 p = .ok v := by
  by_cases hp0 : p = []
  · rw [hp0] at hs
    simp [SetValueByPath] at hs
  · unfold SetValueByPath at hs
    rw [if_neg hp0] at hs
    unfold GetValueByPath at hg ⊢
    rw [if_neg hp0] at hg ⊢
    split at hs
    · exact absurd hs (by simp)
    · rename_i single heq
      rw [heq] at hg ⊢
      exact setAt_get t single 0 0 w v t2 hg hs
    · rename_i a b rest heq
      rw [heq] at hg hr ⊢
      split at hs
      · exact absurd hs (by simp)
      · rename_i front lastP heq2
        have hfl : a :: b :: rest = front ++ [lastP] := splitLast_spec _ front lastP heq2
        rw [hfl, List.dropLast_concat] at hr
        have hgp : GetValueByPath t (dotJoin front) = getAtSegs t front 0 := by
          unfold GetValueByPath
          by_cases hdj : dotJoin front = []
          · rw [if_pos hdj]
            have hfe : front = [] := by rw [← hr, hdj]; rfl
            subst hfe
            simp [getAtSegs]
          · rw [if_neg hdj, hr]
        rw [hgp] at hs
        rw [hfl] at hg ⊢
        rw [getAtSegs_append front [lastP] t 0] at hg
        cases hpar : getAtSegs t front 0 with
        | error e =>
          rw [hpar] at hs
          simp at hs
        | ok parent =>
          rw [hpar] at hg hs
          have hg2 : getAtSegs parent [lastP] (0 + front.length) = .ok w := hg
          rw [hr] at hs
          have hs2 : (match setValueAtPath parent lastP v with
              | Except.error e => Except.error e
              | Except.ok parent2 =>
                match modifyAtSegs t front 0 (fun _ => Except.ok parent2) with
                | Except.ok data2 => Except.ok data2
                | Except.error e => Except.error e) = Except.ok t2 := hs
          cases hset : setValueAtPath parent lastP v with
          | error e =>
            rw [hset] at hs2
            simp at hs2
          | ok parent2 =>
            rw [hset] at hs2
            obtain ⟨t3, hmod, hget⟩ :=
              modifyAtSegs_ok front t (fun _ => .ok parent2) parent parent2 0 0 0 hpar rfl
            have hs3 : (match modifyAtSegs t front 0 (fun _ => Except.ok parent2) with
                | Except.ok data2 => Except.ok data2
                | Except.error e => Except.error e) = Except.ok t2 := hs2
            rw [hmod] at hs3
            have hs4 : Except.ok t3 = Except.ok t2 := hs3
            injection hs4 with ht
            subst ht
            rw [getAtSegs_append front [lastP] _ 0, hget]
            exact setAt_get parent lastP (0 + front.length) (0 + front.length) w v
              parent2 hg2 hset

/-- Witness for the amended claim C2 on the tree `{"a":{"b":"c"}}`, the path
`"a.b"` and the written value `"z"`. -/
theorem c2_witness :
    GetValueByPath (Val.obj [(sl ("a"), Val.obj [(sl ("b"), Val.vstr (sl ("z")))])]) (sl ("a.b")) =
      .ok (Val.vstr (sl ("z"))) :=
  c2_set_get_round_trip (Val.obj [(sl ("a"), Val.obj [(sl ("b"), Val.vstr (sl ("c")))])])
    (sl ("a.b")) (Val.vstr (sl ("z"))) (Val.vstr (sl ("c")))
    (Val.obj [(sl ("a"), Val.obj [(sl ("b"), Val.vstr (sl ("z")))])]) rfl rfl (by decide)
